import Mathlib

/-!
Verification of the MessagePack codec in HackHow/messagepack-project.

The development shallowly embeds the Go sources:

* the encoder of `pkg/msgpack/encode.go` (the snapshot with the
  float-integrality test and lexicographically sorted map keys):
  `EncodeJSONToMsgPack` / `encodeValue` / `encodeSignedInt` /
  `encodeUnsignedInt`;
* the decoder of `pkg/msgpack/decode.go` (the snapshot whose integer,
  float, string-length, array-length and map-length reads discard the
  error result of `safeReadN` / `ReadByte`): `decodeValue` /
  `safeReadN` / `readString` / `readArray` / `readMap`.

Buffers are lists of naturals below 256 (Go `[]byte`).  Machine integers
are modelled as `Nat` / `Int` with explicit reductions modulo powers of
two.  IEEE-754 binary64 values are modelled by their 64-bit pattern; the
exact rational value of a finite pattern is an integer multiple of
2 ^ (-1074), and is represented throughout by that integer numerator
(the value scaled by 2 ^ 1074), so that all floating-point reasoning is
integer arithmetic.
-/

set_option exponentiation.threshold 1200
set_option maxRecDepth 4000

namespace MsgPack

/-! ## Byte-level helpers -/

/-- Big-endian byte list of the low `w` bytes of `v`: the Go pattern
`byte(v >> 8*(w-1)), ..., byte(v >> 8), byte(v)`. -/
def beBytes : Nat → Nat → List Nat
  | 0, _ => []
  | w + 1, v => (v >>> (8 * w)) % 256 :: beBytes w v

/-- Big-endian accumulation of a byte list, the Go pattern
`v = v<<8 | b` over the bytes read from the wire. -/
def beAcc (xs : List Nat) : Nat :=
  List.foldl (fun a b => (a <<< 8) ||| b) 0 xs

/-- Reinterpret a `w`-bit unsigned value as a two's-complement signed
value, the Go conversions `int8(b)`, `int16(x)`, `int32(x)`, `int64(x)`. -/
def sint (w : Nat) (v : Nat) : Int :=
  if v < 2 ^ (w - 1) then (v : Int) else (v : Int) - 2 ^ w

/-- The 64-bit two's-complement pattern of a signed value, used when the
encoder writes the raw bytes of a Go `int64`. -/
def u64 (n : Int) : Nat := (n % (2 ^ 64 : Int)).toNat

/-! ## IEEE-754 binary64 bit-pattern model

A Go `float64` is its 64-bit pattern `b < 2 ^ 64`.  The biased exponent
field is `f64exp`, the mantissa field `f64mant`, the sign bit `f64sign`.
A finite pattern denotes the rational
`(-1)^sign * f64sig * 2 ^ (f64scale - 1) / 2 ^ 1074`; the integer
numerator of that rational at scale `2 ^ 1074` is `f64valZ`. -/

/-- Biased exponent field (11 bits). -/
def f64exp (b : Nat) : Nat := b / 2 ^ 52 % 2 ^ 11

/-- Mantissa field (52 bits). -/
def f64mant (b : Nat) : Nat := b % 2 ^ 52

/-- Sign bit. -/
def f64sign (b : Nat) : Bool := b / 2 ^ 63 % 2 == 1

/-- A pattern is finite unless its exponent field is all ones. -/
def f64Finite (b : Nat) : Bool := f64exp b != 2047

/-- Not-a-number: exponent all ones and nonzero mantissa. -/
def f64IsNaN (b : Nat) : Bool := f64exp b == 2047 && f64mant b != 0

/-- Infinity: exponent all ones and zero mantissa. -/
def f64IsInf (b : Nat) : Bool := f64exp b == 2047 && f64mant b == 0

/-- Effective significand: implicit leading bit for normal numbers. -/
def f64sig (b : Nat) : Nat :=
  if f64exp b = 0 then f64mant b else 2 ^ 52 + f64mant b

/-- Effective exponent field: subnormals share the exponent of the
smallest normals. -/
def f64scale (b : Nat) : Nat :=
  if f64exp b = 0 then 1 else f64exp b

/-- Magnitude of a finite pattern, scaled by `2 ^ 1074` (an integer). -/
def f64magZ (b : Nat) : Nat := f64sig b * 2 ^ (f64scale b - 1)

/-- Signed value of a finite pattern, scaled by `2 ^ 1074`. -/
def f64valZ (b : Nat) : Int :=
  if f64sign b then -(f64magZ b : Int) else (f64magZ b : Int)

/-- The Go conversion `int64(val)` for a `float64` pattern: truncation
toward zero; NaN, infinities and out-of-range values produce
`-2 ^ 63` (the amd64 `cvttsd2si` indefinite-integer result). -/
def goTruncToI64 (b : Nat) : Int :=
  if f64Finite b then
    let t : Nat := f64magZ b / 2 ^ 1074
    if f64sign b then
      if t ≤ 2 ^ 63 then -(t : Int) else -(2 ^ 63 : Int)
    else
      if t < 2 ^ 63 then (t : Int) else -(2 ^ 63 : Int)
  else -(2 ^ 63 : Int)

/-- Fuelled base-2 logarithm (floor); total and kernel-reducible.
`log2F f n` is the index of the highest set bit of `n` whenever
`0 < n < 2 ^ f`. -/
def log2F : Nat → Nat → Nat
  | 0, _ => 0
  | f + 1, n => if 2 ≤ n then log2F f (n / 2) + 1 else 0

/-- Bit pattern of the binary64 nearest to a positive natural `a`
(round to nearest, ties to even), for `a < 2 ^ 64`.  With `n` the index
of the highest set bit: an exact significand shift when `a < 2 ^ 53`,
otherwise the dropped low `n - 52` bits round the quotient, ties going
to the even quotient; a carry out of the significand lands in the
correct exponent by arithmetic. -/
def natToF64 (a : Nat) : Nat :=
  if log2F 64 a ≤ 52 then
    (1022 + log2F 64 a) * 2 ^ 52 + a * 2 ^ (52 - log2F 64 a)
  else
    (1022 + log2F 64 a) * 2 ^ 52 +
      (if 2 ^ (log2F 64 a - 52 - 1) < a % 2 ^ (log2F 64 a - 52)
          ∨ (a % 2 ^ (log2F 64 a - 52) = 2 ^ (log2F 64 a - 52 - 1)
             ∧ a / 2 ^ (log2F 64 a - 52) % 2 = 1)
       then a / 2 ^ (log2F 64 a - 52) + 1
       else a / 2 ^ (log2F 64 a - 52))

/-- The Go conversion `float64(k)` for an `int64` value `k`: round to
nearest, ties to even. -/
def f64ofInt (k : Int) : Nat :=
  if k = 0 then 0
  else if k < 0 then 2 ^ 63 + natToF64 k.natAbs
  else natToF64 k.natAbs

/-- The Go comparison `x == y` on `float64` patterns: false whenever a
NaN is involved, value comparison for finite patterns (so `-0.0 == 0.0`),
sign comparison between infinities. -/
def goF64Eq (x y : Nat) : Bool :=
  if f64IsNaN x || f64IsNaN y then false
  else if f64Finite x && f64Finite y then f64valZ x == f64valZ y
  else f64IsInf x && f64IsInf y && (f64sign x == f64sign y)

/-- The spec-side notion for C4: the pattern is finite and denotes an
integer in the signed 64-bit range (no fractional part, within range). -/
def f64IsIntegralI64 (b : Nat) : Prop :=
  f64Finite b = true ∧
  ∃ k : Int, -(2 ^ 63) ≤ k ∧ k < 2 ^ 63 ∧ f64valZ b = k * 2 ^ 1074

/-! ## The value model fed to the encoder

`encoding/json.Unmarshal` into `interface{}` produces exactly: `nil`,
`bool`, `float64`, `string`, `[]interface{}` and
`map[string]interface{}`.  `JVal` is that value model; numbers carry
their `float64` bit pattern, strings their UTF-8 bytes.  An object is
the canonical key-sorted association list of a Go map (the encoder
snapshot sorts the keys with `sort.Strings` before iterating, so the
encoder walks exactly this list). -/

inductive JVal where
  | null
  | bool (b : Bool)
  | num (bits : Nat)
  | str (s : List Nat)
  | arr (xs : List JVal)
  | obj (kvs : List (List Nat × JVal))

/-! ## Encoder (`encode.go`) -/

/-- Go `encodeSignedInt(buf, n)`: positive fixint, `0xd0`..`0xd3` with
the two's-complement bytes, negative fixint for `-32 ≤ n < 0`.  Note the
positive branch tags `128..255` with the `int8` tag `0xd0`. -/
def encodeSignedInt (n : Int) : List Nat :=
  if 0 ≤ n then
    if n ≤ 127 then [n.toNat]
    else if n ≤ 255 then 0xd0 :: beBytes 1 (u64 n)
    else if n ≤ 32767 then 0xd1 :: beBytes 2 (u64 n)
    else if n ≤ 2147483647 then 0xd2 :: beBytes 4 (u64 n)
    else 0xd3 :: beBytes 8 (u64 n)
  else
    if -32 ≤ n then [0xe0 ||| (n + 32).toNat]
    else if -128 ≤ n then 0xd0 :: beBytes 1 (u64 n)
    else if -32768 ≤ n then 0xd1 :: beBytes 2 (u64 n)
    else if -2147483648 ≤ n then 0xd2 :: beBytes 4 (u64 n)
    else 0xd3 :: beBytes 8 (u64 n)

/-- Go `encodeUnsignedInt(buf, n)`: positive fixint for `n ≤ 127`, else
the smallest of `uint8/16/32/64` (`0xcc`..`0xcf`) with big-endian
payload. -/
def encodeUnsignedInt (n : Nat) : List Nat :=
  if n ≤ 127 then [n % 256]
  else if n ≤ 0xff then 0xcc :: beBytes 1 n
  else if n ≤ 0xffff then 0xcd :: beBytes 2 n
  else if n ≤ 0xffffffff then 0xce :: beBytes 4 n
  else 0xcf :: beBytes 8 n

/-- The string branch of Go `encodeValue`: fixstr for length at most 31,
`0xd9` plus one length byte up to 255, else `0xda` plus the two bytes
`byte(len >> 8), byte(len)`. -/
def encodeStr (s : List Nat) : List Nat :=
  (if s.length ≤ 31 then [0xa0 ||| s.length % 256]
   else if s.length ≤ 255 then [0xd9, s.length % 256]
   else [0xda, (s.length >>> 8) % 256, s.length % 256]) ++ s

mutual

/-- Go `encodeValue(buf, v)` on the JSON value model.  A `float64` that
equals `float64(int64(val))` is routed to `encodeSignedInt`; otherwise
the tag `0xcb` is followed by the 8 bytes `byte(bits >> 56) ..
byte(bits)`.  Map keys are iterated in sorted order, which is exactly
the order of the canonical association list. -/
def encodeValue : JVal → List Nat
  | .null => [0xc0]
  | .bool true => [0xc3]
  | .bool false => [0xc2]
  | .num bits =>
    if goF64Eq bits (f64ofInt (goTruncToI64 bits)) then
      encodeSignedInt (goTruncToI64 bits)
    else
      0xcb :: beBytes 8 bits
  | .str s => encodeStr s
  | .arr xs =>
    (if xs.length ≤ 15 then [0x90 ||| xs.length % 256]
     else if xs.length ≤ 65535 then 0xdc :: beBytes 2 xs.length
     else 0xdd :: beBytes 4 xs.length) ++ encodeList xs
  | .obj kvs =>
    (if kvs.length ≤ 15 then [0x80 ||| kvs.length % 256]
     else if kvs.length ≤ 65535 then 0xde :: beBytes 2 kvs.length
     else 0xdf :: beBytes 4 kvs.length) ++ encodePairs kvs

/-- Elementwise encoding of the members of an array, in order. -/
def encodeList : List JVal → List Nat
  | [] => []
  | x :: xs => encodeValue x ++ encodeList xs

/-- Interleaved key/value encoding of an object's sorted pairs; the key
goes through the string branch of `encodeValue`. -/
def encodePairs : List (List Nat × JVal) → List Nat
  | [] => []
  | (k, v) :: kvs => encodeStr k ++ encodeValue v ++ encodePairs kvs

end

/-! ## Decoder (`decode.go`) -/

/-- Decoded Go values, tagged by the dynamic type the decoder snapshot
actually returns: `int64` for fixints and the `0xd3` tag, but the native
widths `int8` / `int16` / `int32` for `0xd0`..`0xd2`, `uint64` for all
unsigned tags, and `float32` / `float64` patterns for `0xca` / `0xcb`. -/
inductive GoVal where
  | null
  | bool (b : Bool)
  | int64 (n : Int)
  | int8 (n : Int)
  | int16 (n : Int)
  | int32 (n : Int)
  | uint64 (n : Nat)
  | float32 (bits : Nat)
  | float64 (bits : Nat)
  | str (s : List Nat)
  | arr (xs : List GoVal)
  | map (kvs : List (List Nat × GoVal))

/-- Decode errors returned by the Go decoder. -/
inductive DecErr where
  | emptyBuffer
  | unexpectedEOF (need got : Nat)
  | nonStringKey
  | unsupportedByte (b : Nat)
deriving DecidableEq

/-- Outcome of a decoding step: a value plus the unread remainder, a
returned Go `error`, a runtime panic from indexing the `nil` slice that
a discarded `safeReadN` error leaves behind (`oob`), or fuel
exhaustion of the embedding (unreachable from `decodeValue`, which
supplies more fuel than the input's nesting depth). -/
inductive DecRes (α : Type) where
  | ok (v : α) (rest : List Nat)
  | fail (e : DecErr)
  | oob
  | fuelOut

/-- Go `safeReadN(buf, n)`: `n` bytes and the remainder when enough
bytes remain, otherwise the EOF error (here `none`, the caller deciding
whether to propagate or discard it). -/
def safeReadN (n : Nat) (bs : List Nat) : Option (List Nat × List Nat) :=
  if bs.length < n then none else some (bs.take n, bs.drop n)

/-- Go `readString(buf, length)`: the only length-prefixed reader that
propagates the `safeReadN` error. -/
def readString (length : Nat) (bs : List Nat) : DecRes GoVal :=
  match safeReadN length bs with
  | none => .fail (.unexpectedEOF length bs.length)
  | some (xs, rest) => .ok (.str xs) rest

/-- Go map insertion `m[key] = val` observed on the final mapping: a
later duplicate key keeps its later value. -/
def goMapPut (k : List Nat) (v : GoVal) (kvs : List (List Nat × GoVal)) :
    List (List Nat × GoVal) :=
  if kvs.any (fun kv => kv.1 == k) then kvs else (k, v) :: kvs

/-- Go `readArray(buf, length)` with the recursive `decodeValue` call
abstracted as `step`: decode `length` elements in order, propagating
failures. -/
def readArray (step : List Nat → DecRes GoVal) :
    Nat → List Nat → DecRes (List GoVal)
  | 0, bs => .ok [] bs
  | n + 1, bs =>
    match step bs with
    | .ok v rest =>
      match readArray step n rest with
      | .ok vs rest2 => .ok (v :: vs) rest2
      | .fail e => .fail e
      | .oob => .oob
      | .fuelOut => .fuelOut
    | .fail e => .fail e
    | .oob => .oob
    | .fuelOut => .fuelOut

/-- Go `readMap(buf, length)` with the recursive `decodeValue` call
abstracted as `step`: decode `length` key/value pairs, failing with the
structural `non-string map key` error when a decoded key is not a
string. -/
def readMap (step : List Nat → DecRes GoVal) :
    Nat → List Nat → DecRes (List (List Nat × GoVal))
  | 0, bs => .ok [] bs
  | n + 1, bs =>
    match step bs with
    | .ok keyRaw rest =>
      match keyRaw with
      | .str k =>
        match step rest with
        | .ok v rest2 =>
          match readMap step n rest2 with
          | .ok kvs rest3 => .ok (goMapPut k v kvs) rest3
          | .fail e => .fail e
          | .oob => .oob
          | .fuelOut => .fuelOut
        | .fail e => .fail e
        | .oob => .oob
        | .fuelOut => .fuelOut
      | _ => .fail .nonStringKey
    | .fail e => .fail e
    | .oob => .oob
    | .fuelOut => .fuelOut

/-- Package an array result as a decoded value. -/
def wrapArr : DecRes (List GoVal) → DecRes GoVal
  | .ok vs rest => .ok (.arr vs) rest
  | .fail e => .fail e
  | .oob => .oob
  | .fuelOut => .fuelOut

/-- Package a map result as a decoded value. -/
def wrapMap : DecRes (List (List Nat × GoVal)) → DecRes GoVal
  | .ok kvs rest => .ok (.map kvs) rest
  | .fail e => .fail e
  | .oob => .oob
  | .fuelOut => .fuelOut

/-- Go `decodeValue(buf)` of the decoder snapshot, with explicit fuel
bounding the nesting depth.  The snapshot discards the error results of
its fixed-width reads: a missing payload byte after `0xcc` / `0xd0`
yields the byte value `0` (Go `ReadByte` returns `0, io.EOF`), a missing
length byte after `0xd9` yields length `0`, and every discarded
`safeReadN` error is followed by an index into the returned `nil` slice,
a runtime panic modelled as `oob`. -/
def decodeF : Nat → List Nat → DecRes GoVal
  | 0, _ => .fuelOut
  | _ + 1, [] => .fail .emptyBuffer
  | f + 1, b :: bs =>
    if b ≤ 0x7f then .ok (.int64 (b : Int)) bs
    else if 0x80 ≤ b ∧ b ≤ 0x8f then wrapMap (readMap (decodeF f) (b &&& 0x0f) bs)
    else if 0x90 ≤ b ∧ b ≤ 0x9f then wrapArr (readArray (decodeF f) (b &&& 0x0f) bs)
    else if 0xa0 ≤ b ∧ b ≤ 0xbf then readString (b &&& 0x1f) bs
    else if 0xe0 ≤ b then .ok (.int64 (sint 8 b)) bs
    else if b = 0xc0 then .ok .null bs
    else if b = 0xc2 then .ok (.bool false) bs
    else if b = 0xc3 then .ok (.bool true) bs
    else if b = 0xcc then
      match bs with
      | [] => .ok (.uint64 0) []
      | v :: rest => .ok (.uint64 v) rest
    else if b = 0xcd then
      match safeReadN 2 bs with
      | some (xs, rest) => .ok (.uint64 (beAcc xs)) rest
      | none => .oob
    else if b = 0xce then
      match safeReadN 4 bs with
      | some (xs, rest) => .ok (.uint64 (beAcc xs)) rest
      | none => .oob
    else if b = 0xcf then
      match safeReadN 8 bs with
      | some (xs, rest) => .ok (.uint64 (beAcc xs)) rest
      | none => .oob
    else if b = 0xd0 then
      match bs with
      | [] => .ok (.int8 (sint 8 0)) []
      | v :: rest => .ok (.int8 (sint 8 v)) rest
    else if b = 0xd1 then
      match safeReadN 2 bs with
      | some (xs, rest) => .ok (.int16 (sint 16 (beAcc xs))) rest
      | none => .oob
    else if b = 0xd2 then
      match safeReadN 4 bs with
      | some (xs, rest) => .ok (.int32 (sint 32 (beAcc xs))) rest
      | none => .oob
    else if b = 0xd3 then
      match safeReadN 8 bs with
      | some (xs, rest) => .ok (.int64 (sint 64 (beAcc xs))) rest
      | none => .oob
    else if b = 0xca then
      match safeReadN 4 bs with
      | some (xs, rest) => .ok (.float32 (beAcc xs)) rest
      | none => .oob
    else if b = 0xcb then
      match safeReadN 8 bs with
      | some (xs, rest) => .ok (.float64 (beAcc xs)) rest
      | none => .oob
    else if b = 0xd9 then
      match bs with
      | [] => readString 0 []
      | l :: rest => readString l rest
    else if b = 0xda then
      match safeReadN 2 bs with
      | some (xs, rest) => readString (beAcc xs) rest
      | none => .oob
    else if b = 0xdc then
      match safeReadN 2 bs with
      | some (xs, rest) => wrapArr (readArray (decodeF f) (beAcc xs) rest)
      | none => .oob
    else if b = 0xdd then
      match safeReadN 4 bs with
      | some (xs, rest) => wrapArr (readArray (decodeF f) (beAcc xs) rest)
      | none => .oob
    else if b = 0xde then
      match safeReadN 2 bs with
      | some (xs, rest) => wrapMap (readMap (decodeF f) (beAcc xs) rest)
      | none => .oob
    else if b = 0xdf then
      match safeReadN 4 bs with
      | some (xs, rest) => wrapMap (readMap (decodeF f) (beAcc xs) rest)
      | none => .oob
    else .fail (.unsupportedByte b)

/-- Go `decodeValue(buf)`: the fuelled decoder at fuel exceeding the
buffer's length, hence exceeding any possible nesting depth. -/
def decodeValue (bs : List Nat) : DecRes GoVal :=
  decodeF (bs.length + 1) bs

/-! ## Observations on decoded values -/

/-- Whether a decoded value is a string (the map-key check
`keyRaw.(string)`). -/
def GoVal.isStr : GoVal → Bool
  | .str _ => true
  | _ => false

/-- Whether a decoded value carries one of the two 64-bit integer types
(`int64` / `uint64`) of the claimed uniform representation. -/
def GoVal.is64BitInt : GoVal → Bool
  | .int64 _ => true
  | .uint64 _ => true
  | _ => false

/-! ## Byte-level lemmas -/

theorem shiftLeft_or_eq_add (a b k : Nat) (h : b < 2 ^ k) :
    (a <<< k) ||| b = a * 2 ^ k + b := by
  rw [Nat.shiftLeft_eq, Nat.mul_comm, ← Nat.mul_add_lt_is_or h, Nat.mul_comm]

theorem beAcc_nil : beAcc [] = 0 := rfl

theorem beAcc_pair (b1 b2 : Nat) (h2 : b2 < 256) :
    beAcc [b1, b2] = b1 * 256 + b2 := by
  show (((0 <<< 8) ||| b1) <<< 8) ||| b2 = b1 * 256 + b2
  rw [show (0 <<< 8) ||| b1 = b1 by rw [Nat.zero_shiftLeft, Nat.zero_or]]
  rw [shiftLeft_or_eq_add b1 b2 8 h2]
  norm_num

theorem beAcc_quad (b1 b2 b3 b4 : Nat)
    (h2 : b2 < 256) (h3 : b3 < 256) (h4 : b4 < 256) :
    beAcc [b1, b2, b3, b4] = ((b1 * 256 + b2) * 256 + b3) * 256 + b4 := by
  show (((((0 <<< 8) ||| b1) <<< 8 ||| b2) <<< 8 ||| b3) <<< 8) ||| b4 =
    ((b1 * 256 + b2) * 256 + b3) * 256 + b4
  rw [show (0 <<< 8) ||| b1 = b1 by rw [Nat.zero_shiftLeft, Nat.zero_or]]
  rw [shiftLeft_or_eq_add b1 b2 8 h2]
  rw [shiftLeft_or_eq_add (b1 * 2 ^ 8 + b2) b3 8 h3]
  rw [shiftLeft_or_eq_add ((b1 * 2 ^ 8 + b2) * 2 ^ 8 + b3) b4 8 h4]
  norm_num

theorem beBytes_length (w v : Nat) : (beBytes w v).length = w := by
  induction w generalizing v with
  | zero => rfl
  | succ w ih => simp [beBytes, ih]

theorem beBytes_bytes_lt (w v : Nat) : ∀ b ∈ beBytes w v, b < 256 := by
  induction w generalizing v with
  | zero => intro b hb; cases hb
  | succ w ih =>
    intro b hb
    rcases hb with _ | ⟨_, hb⟩
    · exact Nat.mod_lt _ (by omega)
    · exact ih v b hb

theorem beAcc_beBytes_general (w : Nat) : ∀ (v a : Nat),
    List.foldl (fun x b => (x <<< 8) ||| b) a (beBytes w v) =
      a * 2 ^ (8 * w) + v % 2 ^ (8 * w) := by
  induction w with
  | zero => intro v a; simp [beBytes, Nat.mod_one]
  | succ w ih =>
    intro v a
    have hd : (v >>> (8 * w)) % 256 < 2 ^ 8 := Nat.mod_lt _ (by omega)
    calc List.foldl (fun x b => (x <<< 8) ||| b) a (beBytes (w + 1) v)
        = List.foldl (fun x b => (x <<< 8) ||| b)
            ((a <<< 8) ||| (v >>> (8 * w)) % 256) (beBytes w v) := rfl
      _ = ((a <<< 8) ||| (v >>> (8 * w)) % 256) * 2 ^ (8 * w) + v % 2 ^ (8 * w) := ih v _
      _ = (a * 2 ^ 8 + (v >>> (8 * w)) % 256) * 2 ^ (8 * w) + v % 2 ^ (8 * w) := by
          rw [shiftLeft_or_eq_add _ _ _ hd]
      _ = a * 2 ^ (8 * (w + 1)) + v % 2 ^ (8 * (w + 1)) := by
          rw [Nat.shiftRight_eq_div_pow]
          have h256 : (256 : Nat) = 2 ^ 8 := rfl
          have hm : v % 2 ^ (8 * (w + 1)) =
              v % 2 ^ (8 * w) + 2 ^ (8 * w) * (v / 2 ^ (8 * w) % 2 ^ 8) := by
            rw [show 8 * (w + 1) = 8 * w + 8 by ring, Nat.pow_add]
            exact Nat.mod_mul
          rw [h256, hm, show 8 * (w + 1) = 8 * w + 8 by ring, Nat.pow_add]
          ring

theorem beAcc_beBytes (w v : Nat) (h : v < 2 ^ (8 * w)) :
    beAcc (beBytes w v) = v := by
  have := beAcc_beBytes_general w v 0
  rw [beAcc, this, Nat.zero_mul, Nat.zero_add, Nat.mod_eq_of_lt h]

theorem safeReadN_exact (n : Nat) (xs rest : List Nat) (h : xs.length = n) :
    safeReadN n (xs ++ rest) = some (xs, rest) := by
  subst h
  rw [safeReadN, if_neg (by simp)]
  rw [List.take_left, List.drop_left]

/-- Concrete smoke checks of the embedding: positive and negative
fixints, nil, a fixarray, a fixmap, the truncation behaviors of the
snapshot, and small encoder outputs. -/
theorem embedding_smoke_checks :
    decodeValue [0x05] = .ok (.int64 5) [] ∧
    decodeValue [0xe0] = .ok (.int64 (-32)) [] ∧
    decodeValue [] = .fail .emptyBuffer ∧
    decodeValue [0xc0] = .ok .null [] ∧
    decodeValue [0x92, 0x01, 0x02] = .ok (.arr [.int64 1, .int64 2]) [] ∧
    decodeValue [0x81, 0xa1, 0x61, 0x07] = .ok (.map [([0x61], .int64 7)]) [] ∧
    decodeValue [0x81, 0xc0, 0x07] = .fail .nonStringKey ∧
    decodeValue [0xd0, 0xc8] = .ok (.int8 (-56)) [] ∧
    encodeSignedInt 200 = [0xd0, 0xc8] ∧
    encodeSignedInt (-33) = [0xd0, 0xdf] ∧
    encodeValue (.str [0x61, 0x62]) = [0xa2, 0x61, 0x62] :=
  ⟨rfl, rfl, rfl, rfl, rfl, rfl, rfl, rfl, by decide, by decide, rfl⟩

/-! ## Binary64 lemmas -/

theorem log2F_spec : ∀ (f n : Nat), 0 < n → n < 2 ^ f →
    2 ^ log2F f n ≤ n ∧ n < 2 ^ (log2F f n + 1) := by
  intro f
  induction f with
  | zero => intro n h1 h2; omega
  | succ f ih =>
    intro n h1 h2
    by_cases h : 2 ≤ n
    · simp only [log2F, if_pos h]
      have hp : 2 ^ (f + 1) = 2 * 2 ^ f := by ring
      have hd2 : n / 2 < 2 ^ f := by omega
      obtain ⟨ha, hb⟩ := ih (n / 2) (by omega) hd2
      have e1 : 2 ^ (log2F f (n / 2) + 1) = 2 * 2 ^ log2F f (n / 2) := by ring
      have e2 : 2 ^ (log2F f (n / 2) + 1 + 1) = 2 * 2 ^ (log2F f (n / 2) + 1) := by ring
      omega
    · simp only [log2F, if_neg h]
      omega

theorem log2F_eq_of {f n k : Nat} (hf : n < 2 ^ f) (h1 : 2 ^ k ≤ n)
    (h2 : n < 2 ^ (k + 1)) : log2F f n = k := by
  have h0 : 0 < n := Nat.lt_of_lt_of_le (Nat.pos_pow_of_pos k (by omega)) h1
  obtain ⟨ha, hb⟩ := log2F_spec f n h0 hf
  rcases Nat.lt_trichotomy (log2F f n) k with h | h | h
  · exfalso
    have : 2 ^ (log2F f n + 1) ≤ 2 ^ k := Nat.pow_le_pow_right (by omega) (by omega)
    omega
  · exact h
  · exfalso
    have : 2 ^ (k + 1) ≤ 2 ^ log2F f n := Nat.pow_le_pow_right (by omega) (by omega)
    omega

theorem f64fields_pos (e m : Nat) (he : e < 2048) (hm : m < 2 ^ 52) :
    f64exp (e * 2 ^ 52 + m) = e ∧ f64mant (e * 2 ^ 52 + m) = m ∧
    f64sign (e * 2 ^ 52 + m) = false := by
  refine ⟨?_, ?_, ?_⟩
  · unfold f64exp; omega
  · unfold f64mant; omega
  · unfold f64sign
    have h : (e * 2 ^ 52 + m) / 2 ^ 63 % 2 = 0 := by omega
    rw [h]
    rfl

theorem f64fields_neg (x : Nat) (hx : x < 2 ^ 63) :
    f64exp (2 ^ 63 + x) = f64exp x ∧ f64mant (2 ^ 63 + x) = f64mant x ∧
    f64sign (2 ^ 63 + x) = true := by
  refine ⟨?_, ?_, ?_⟩
  · unfold f64exp; omega
  · unfold f64mant; omega
  · unfold f64sign
    have h : (2 ^ 63 + x) / 2 ^ 63 % 2 = 1 := by omega
    rw [h]
    rfl

/-- Exact conversion: a positive natural below `2 ^ 53` becomes a
finite, positive pattern below `2 ^ 63` of exactly its value. -/
theorem natToF64_exact (a : Nat) (h0 : 0 < a) (h53 : a < 2 ^ 53) :
    f64Finite (natToF64 a) = true ∧ f64sign (natToF64 a) = false ∧
    natToF64 a < 2 ^ 63 ∧ f64magZ (natToF64 a) = a * 2 ^ 1074 := by
  have hlog := log2F_spec 64 a h0 (by omega)
  have hn52 : log2F 64 a ≤ 52 := by
    by_contra hcon
    have : 2 ^ 53 ≤ 2 ^ log2F 64 a := Nat.pow_le_pow_right (by omega) (by omega)
    omega
  unfold natToF64
  rw [if_pos hn52]
  set n := log2F 64 a with hn
  have hup1 : 2 ^ 52 ≤ a * 2 ^ (52 - n) := by
    calc 2 ^ 52 = 2 ^ n * 2 ^ (52 - n) := by
          rw [← pow_add]
          congr 1
          omega
      _ ≤ a * 2 ^ (52 - n) := Nat.mul_le_mul_right _ hlog.1
  have hup2 : a * 2 ^ (52 - n) < 2 ^ 53 := by
    calc a * 2 ^ (52 - n) < 2 ^ (n + 1) * 2 ^ (52 - n) :=
          (Nat.mul_lt_mul_right (Nat.pos_pow_of_pos _ (by omega))).mpr hlog.2
      _ = 2 ^ 53 := by
          rw [← pow_add]
          congr 1
          omega
  have hbits : (1022 + n) * 2 ^ 52 + a * 2 ^ (52 - n) =
      (1023 + n) * 2 ^ 52 + (a * 2 ^ (52 - n) - 2 ^ 52) := by
    omega
  rw [hbits]
  obtain ⟨hexp, hmant, hsign⟩ :=
    f64fields_pos (1023 + n) (a * 2 ^ (52 - n) - 2 ^ 52) (by omega) (by omega)
  refine ⟨?_, hsign, ?_, ?_⟩
  · unfold f64Finite
    rw [hexp]
    simp
    omega
  · omega
  · unfold f64magZ f64sig f64scale
    rw [hexp, hmant, if_neg (by omega : ¬ (1023 + n) = 0), if_neg (by omega : ¬ (1023 + n) = 0)]
    have hsig : 2 ^ 52 + (a * 2 ^ (52 - n) - 2 ^ 52) = a * 2 ^ (52 - n) := by omega
    rw [hsig]
    have : (52 - n) + (1023 + n - 1) = 1074 := by omega
    rw [Nat.mul_assoc, ← pow_add, this]

/-- Dyadic conversion: a value `S * 2 ^ p` with a full-width significand
converts exactly. -/
theorem natToF64_dyadic (S p : Nat) (hS1 : 2 ^ 52 ≤ S) (hS2 : S < 2 ^ 53)
    (hp : 1 ≤ p) (hle : S * 2 ^ p ≤ 2 ^ 63) :
    f64Finite (natToF64 (S * 2 ^ p)) = true ∧ f64sign (natToF64 (S * 2 ^ p)) = false ∧
    natToF64 (S * 2 ^ p) < 2 ^ 63 ∧ f64magZ (natToF64 (S * 2 ^ p)) = S * 2 ^ p * 2 ^ 1074 := by
  have hp11 : p ≤ 11 := by
    by_contra hcon
    have h1 : 2 ^ 52 * 2 ^ 12 ≤ S * 2 ^ p := by
      apply Nat.mul_le_mul hS1
      exact Nat.pow_le_pow_right (by omega) (by omega)
    omega
  have hlo : 2 ^ (52 + p) ≤ S * 2 ^ p := by
    rw [pow_add]
    exact Nat.mul_le_mul_right _ hS1
  have hhi : S * 2 ^ p < 2 ^ (53 + p) := by
    rw [pow_add]
    exact (Nat.mul_lt_mul_right (Nat.pos_pow_of_pos _ (by omega))).mpr hS2
  have hlog : log2F 64 (S * 2 ^ p) = 52 + p := by
    apply log2F_eq_of (by omega) hlo
    have : 52 + p + 1 = 53 + p := by omega
    rw [this]
    exact hhi
  unfold natToF64
  rw [hlog, if_neg (by omega : ¬ 52 + p ≤ 52)]
  have hs : 52 + p - 52 = p := by omega
  rw [hs]
  have hq : S * 2 ^ p / 2 ^ p = S := Nat.mul_div_cancel _ (Nat.pos_pow_of_pos _ (by omega))
  have hr : S * 2 ^ p % 2 ^ p = 0 := Nat.mul_mod_left _ _
  rw [hq, hr]
  rw [if_neg (by
    have hgt : 0 < 2 ^ (p - 1) := Nat.pos_pow_of_pos _ (by omega)
    push_neg
    constructor
    · omega
    · intro hc
      exfalso
      omega)]
  have hbits : (1022 + (52 + p)) * 2 ^ 52 + S =
      (1075 + p) * 2 ^ 52 + (S - 2 ^ 52) := by omega
  rw [hbits]
  obtain ⟨hexp, hmant, hsign⟩ :=
    f64fields_pos (1075 + p) (S - 2 ^ 52) (by omega) (by omega)
  refine ⟨?_, hsign, ?_, ?_⟩
  · unfold f64Finite
    rw [hexp]
    simp
    omega
  · omega
  · unfold f64magZ f64sig f64scale
    rw [hexp, hmant, if_neg (by omega : ¬ (1075 + p) = 0), if_neg (by omega : ¬ (1075 + p) = 0)]
    have hsig : 2 ^ 52 + (S - 2 ^ 52) = S := by omega
    rw [hsig]
    have : 1075 + p - 1 = p + 1074 := by omega
    rw [this, pow_add, ← Nat.mul_assoc]

/-- General conversion of a positive natural up to `2 ^ 63`: the result
is finite, positive, below `2 ^ 63`, and its value is an integer. -/
theorem natToF64_int_general (a : Nat) (h0 : 0 < a) (hle : a ≤ 2 ^ 63) :
    f64Finite (natToF64 a) = true ∧ f64sign (natToF64 a) = false ∧
    natToF64 a < 2 ^ 63 ∧ ∃ j : Nat, f64magZ (natToF64 a) = j * 2 ^ 1074 := by
  by_cases h53 : a < 2 ^ 53
  · obtain ⟨h1, h2, h3, h4⟩ := natToF64_exact a h0 h53
    exact ⟨h1, h2, h3, a, h4⟩
  push_neg at h53
  have hlog := log2F_spec 64 a h0 (by omega)
  set n := log2F 64 a with hn
  have hn53 : 53 ≤ n := by
    by_contra hcon
    have : 2 ^ (n + 1) ≤ 2 ^ 53 := Nat.pow_le_pow_right (by omega) (by omega)
    omega
  have hn63 : n ≤ 63 := by
    by_contra hcon
    have : 2 ^ 64 ≤ 2 ^ n := Nat.pow_le_pow_right (by omega) (by omega)
    omega
  unfold natToF64
  rw [← hn, if_neg (by omega : ¬ n ≤ 52)]
  have hqlo : 2 ^ 52 ≤ a / 2 ^ (n - 52) := by
    refine (Nat.le_div_iff_mul_le (Nat.pos_pow_of_pos _ (by omega))).mpr ?_
    calc 2 ^ 52 * 2 ^ (n - 52) = 2 ^ n := by
          rw [← pow_add]
          congr 1
          omega
      _ ≤ a := hlog.1
  have hqhi : a / 2 ^ (n - 52) < 2 ^ 53 := by
    refine (Nat.div_lt_iff_lt_mul (Nat.pos_pow_of_pos _ (by omega))).mpr ?_
    calc a < 2 ^ (n + 1) := hlog.2
      _ = 2 ^ 53 * 2 ^ (n - 52) := by
          rw [← pow_add]
          congr 1
          omega
  set q := a / 2 ^ (n - 52) with hq
  set r := a % 2 ^ (n - 52) with hr
  set q2 := if 2 ^ (n - 52 - 1) < r ∨ (r = 2 ^ (n - 52 - 1) ∧ q % 2 = 1) then q + 1 else q
    with hq2
  have hq2b : 2 ^ 52 ≤ q2 ∧ q2 ≤ 2 ^ 53 := by
    rw [hq2]
    split
    · omega
    · omega
  by_cases hc : q2 < 2 ^ 53
  · have hbits : (1022 + n) * 2 ^ 52 + q2 = (1023 + n) * 2 ^ 52 + (q2 - 2 ^ 52) := by
      omega
    rw [hbits]
    obtain ⟨hexp, hmant, hsign⟩ :=
      f64fields_pos (1023 + n) (q2 - 2 ^ 52) (by omega) (by omega)
    refine ⟨?_, hsign, ?_, ?_⟩
    · unfold f64Finite
      rw [hexp]
      simp
      omega
    · omega
    · refine ⟨q2 * 2 ^ (n - 52), ?_⟩
      unfold f64magZ f64sig f64scale
      rw [hexp, hmant, if_neg (by omega : ¬ (1023 + n) = 0),
        if_neg (by omega : ¬ (1023 + n) = 0)]
      have hsig : 2 ^ 52 + (q2 - 2 ^ 52) = q2 := by omega
      rw [hsig]
      have : 1023 + n - 1 = (n - 52) + 1074 := by omega
      rw [this, pow_add, ← Nat.mul_assoc]
  · have hq2e : q2 = 2 ^ 53 := by omega
    have hbits : (1022 + n) * 2 ^ 52 + q2 = (1024 + n) * 2 ^ 52 + 0 := by
      rw [hq2e]
      have : (2 : Nat) ^ 53 = 2 * 2 ^ 52 := by ring
      omega
    rw [hbits]
    obtain ⟨hexp, hmant, hsign⟩ :=
      f64fields_pos (1024 + n) 0 (by omega) (by omega)
    refine ⟨?_, hsign, ?_, ?_⟩
    · unfold f64Finite
      rw [hexp]
      simp
      omega
    · omega
    · refine ⟨2 ^ (n + 1), ?_⟩
      unfold f64magZ f64sig f64scale
      rw [hexp, hmant, if_neg (by omega : ¬ (1024 + n) = 0),
        if_neg (by omega : ¬ (1024 + n) = 0)]
      have hsig : 2 ^ 52 + 0 = 2 ^ 52 := by omega
      rw [hsig, ← pow_add, ← pow_add]
      congr 1
      omega

theorem natAbs_if_cast (k : Int) :
    (if k < 0 then -((k.natAbs * 2 ^ 1074 : Nat) : Int)
     else ((k.natAbs * 2 ^ 1074 : Nat) : Int)) = k * 2 ^ 1074 := by
  by_cases hneg : k < 0
  · rw [if_pos hneg, Nat.cast_mul, Nat.cast_pow]
    rw [Int.ofNat_natAbs_of_nonpos (Int.le_of_lt hneg)]
    push_cast
    ring
  · rw [if_neg hneg, Nat.cast_mul, Nat.cast_pow]
    rw [Int.natAbs_of_nonneg (le_of_not_lt hneg)]
    push_cast
    ring

/-- Sign glue: the conversion of a nonzero integer is the positive
conversion of its absolute value, with the sign bit set for negatives. -/
theorem f64valZ_ofInt_of_mag (k : Int) (hk0 : k ≠ 0) (M : Nat)
    (hfin : f64Finite (natToF64 k.natAbs) = true)
    (hsign : f64sign (natToF64 k.natAbs) = false)
    (hlt : natToF64 k.natAbs < 2 ^ 63)
    (hmag : f64magZ (natToF64 k.natAbs) = M) :
    f64Finite (f64ofInt k) = true ∧
    f64valZ (f64ofInt k) = (if k < 0 then -(M : Int) else (M : Int)) := by
  unfold f64ofInt
  rw [if_neg hk0]
  by_cases hneg : k < 0
  · rw [if_pos hneg]
    obtain ⟨hexp, hmant, hs⟩ := f64fields_neg (natToF64 k.natAbs) hlt
    have hm : f64magZ (2 ^ 63 + natToF64 k.natAbs) = M := by
      unfold f64magZ f64sig f64scale at hmag ⊢
      rw [hexp, hmant]
      exact hmag
    constructor
    · unfold f64Finite at hfin ⊢
      rw [hexp]
      exact hfin
    · unfold f64valZ
      rw [hs, hm, if_pos hneg]
      simp
  · rw [if_neg hneg]
    refine ⟨hfin, ?_⟩
    unfold f64valZ
    rw [hsign, hmag, if_neg hneg]
    simp

/-- The pattern 0 denotes the value 0. -/
theorem f64valZ_zero : f64Finite (0 : Nat) = true ∧ f64valZ (0 : Nat) = 0 := by
  constructor
  · rfl
  · unfold f64valZ f64magZ f64sig f64sign f64mant f64exp
    norm_num

/-- Conversion of an integer of magnitude below `2 ^ 53` is exact. -/
theorem f64ofInt_exact_small (k : Int) (hk : k.natAbs < 2 ^ 53) :
    f64Finite (f64ofInt k) = true ∧ f64valZ (f64ofInt k) = k * 2 ^ 1074 := by
  by_cases hk0 : k = 0
  · subst hk0
    have h0 : f64ofInt 0 = 0 := by unfold f64ofInt; simp
    rw [h0]
    exact ⟨f64valZ_zero.1, by rw [f64valZ_zero.2]; ring⟩
  · have hpos : 0 < k.natAbs := Int.natAbs_pos.mpr hk0
    obtain ⟨h1, h2, h3, h4⟩ := natToF64_exact k.natAbs hpos hk
    obtain ⟨hf, hv⟩ := f64valZ_ofInt_of_mag k hk0 _ h1 h2 h3 h4
    refine ⟨hf, ?_⟩
    rw [hv]
    exact natAbs_if_cast k

/-- Conversion of any integer of magnitude at most `2 ^ 63` is finite
with an integer value. -/
theorem f64ofInt_int (k : Int) (hk : k.natAbs ≤ 2 ^ 63) :
    f64Finite (f64ofInt k) = true ∧
    ∃ j : Int, f64valZ (f64ofInt k) = j * 2 ^ 1074 := by
  by_cases hk0 : k = 0
  · subst hk0
    have h0 : f64ofInt 0 = 0 := by unfold f64ofInt; simp
    rw [h0]
    exact ⟨f64valZ_zero.1, 0, by rw [f64valZ_zero.2]; ring⟩
  · have hpos : 0 < k.natAbs := Int.natAbs_pos.mpr hk0
    obtain ⟨h1, h2, h3, j, hj⟩ := natToF64_int_general k.natAbs hpos hk
    obtain ⟨hf, hv⟩ := f64valZ_ofInt_of_mag k hk0 _ h1 h2 h3 hj
    refine ⟨hf, ?_⟩
    by_cases hneg : k < 0
    · refine ⟨-(j : Int), ?_⟩
      rw [hv, if_pos hneg]
      push_cast
      ring
    · refine ⟨(j : Int), ?_⟩
      rw [hv, if_neg hneg]
      push_cast
      ring

/-- A pattern whose value is `k * 2 ^ 1074` has magnitude
`|k| * 2 ^ 1074`. -/
theorem f64valZ_to_mag (b : Nat) (k : Int) (hval : f64valZ b = k * 2 ^ 1074) :
    f64magZ b = k.natAbs * 2 ^ 1074 := by
  have hp : (0 : Int) < 2 ^ 1074 := by positivity
  unfold f64valZ at hval
  by_cases hs : f64sign b
  · rw [if_pos hs] at hval
    have hk0 : k ≤ 0 := by
      by_contra hcon
      push_neg at hcon
      have h1 : (0 : Int) < k * 2 ^ 1074 := mul_pos (by omega) hp
      have h2 : (0 : Int) ≤ (f64magZ b : Int) := Int.ofNat_nonneg _
      omega
    have : (f64magZ b : Int) = (k.natAbs : Int) * 2 ^ 1074 := by
      rw [Int.ofNat_natAbs_of_nonpos hk0]
      omega
    exact_mod_cast this
  · rw [if_neg hs] at hval
    have hk0 : 0 ≤ k := by
      by_contra hcon
      push_neg at hcon
      have h1 : k * 2 ^ 1074 < 0 := by
        apply mul_neg_of_neg_of_pos hcon hp
      have h2 : (0 : Int) ≤ (f64magZ b : Int) := Int.ofNat_nonneg _
      omega
    have : (f64magZ b : Int) = (k.natAbs : Int) * 2 ^ 1074 := by
      rw [Int.natAbs_of_nonneg hk0]
      omega
    exact_mod_cast this

/-- The significand is below `2 ^ 53`. -/
theorem f64sig_lt (b : Nat) : f64sig b < 2 ^ 53 := by
  unfold f64sig f64mant
  split <;> omega

/-- A finite pattern of integer magnitude between `2 ^ 53` and `2 ^ 63`
has a full-width dyadic decomposition of its magnitude. -/
theorem repr_big_decomp (b : Nat) (a : Nat) (_hfin : f64Finite b = true)
    (hmag : f64magZ b = a * 2 ^ 1074) (ha : 2 ^ 53 ≤ a) (ha2 : a ≤ 2 ^ 63) :
    ∃ S p, 2 ^ 52 ≤ S ∧ S < 2 ^ 53 ∧ 1 ≤ p ∧ a = S * 2 ^ p := by
  have hm52 : f64mant b < 2 ^ 52 := by unfold f64mant; omega
  unfold f64magZ f64sig f64scale at hmag
  by_cases he : f64exp b = 0
  · exfalso
    rw [if_pos he, if_pos he] at hmag
    have hmul : a ≤ a * 2 ^ 1074 := Nat.le_mul_of_pos_right _ (by positivity)
    simp at hmag
    omega
  · rw [if_neg he, if_neg he] at hmag
    by_cases hEb : f64exp b - 1 ≤ 1074
    · exfalso
      have h1 : (2 ^ 52 + f64mant b) * 2 ^ (f64exp b - 1) < 2 ^ 53 * 2 ^ 1074 := by
        calc (2 ^ 52 + f64mant b) * 2 ^ (f64exp b - 1)
            < 2 ^ 53 * 2 ^ (f64exp b - 1) :=
              (Nat.mul_lt_mul_right (Nat.pos_pow_of_pos _ (by omega))).mpr (by omega)
          _ ≤ 2 ^ 53 * 2 ^ 1074 :=
              Nat.mul_le_mul_left _ (Nat.pow_le_pow_right (by omega) hEb)
      have h2 : 2 ^ 53 * 2 ^ 1074 ≤ a * 2 ^ 1074 := Nat.mul_le_mul_right _ ha
      omega
    · push_neg at hEb
      refine ⟨2 ^ 52 + f64mant b, f64exp b - 1075, by omega, by omega, by omega, ?_⟩
      have hsplit : (2 ^ 52 + f64mant b) * 2 ^ (f64exp b - 1) =
          (2 ^ 52 + f64mant b) * 2 ^ (f64exp b - 1075) * 2 ^ 1074 := by
        rw [Nat.mul_assoc, ← pow_add]
        congr 2
        omega
      rw [hsplit] at hmag
      exact (Nat.eq_of_mul_eq_mul_right (Nat.pos_pow_of_pos _ (by omega)) hmag).symm

/-- Conversion of an integer that is the value of some finite pattern
is exact. -/
theorem f64ofInt_exact_repr (b : Nat) (k : Int) (hfin : f64Finite b = true)
    (hval : f64valZ b = k * 2 ^ 1074) (hk : k.natAbs ≤ 2 ^ 63) :
    f64Finite (f64ofInt k) = true ∧ f64valZ (f64ofInt k) = k * 2 ^ 1074 := by
  by_cases hsmall : k.natAbs < 2 ^ 53
  · exact f64ofInt_exact_small k hsmall
  · push_neg at hsmall
    have hk0 : k ≠ 0 := by
      intro h
      rw [h] at hsmall
      simp at hsmall
    have hmag := f64valZ_to_mag b k hval
    obtain ⟨S, p, hS1, hS2, hp, ha⟩ := repr_big_decomp b k.natAbs hfin hmag hsmall hk
    have hdy := natToF64_dyadic S p hS1 hS2 hp (by rw [← ha]; exact hk)
    rw [← ha] at hdy
    obtain ⟨hf, hv⟩ := f64valZ_ofInt_of_mag k hk0 _ hdy.1 hdy.2.1 hdy.2.2.1 hdy.2.2.2
    refine ⟨hf, ?_⟩
    rw [hv]
    exact natAbs_if_cast k

/-- The Go truncation of a finite pattern with integer value `k` in the
`int64` range is exactly `k`. -/
theorem goTrunc_of_int_val (b : Nat) (k : Int) (hfin : f64Finite b = true)
    (hval : f64valZ b = k * 2 ^ 1074) (hlo : -(2 ^ 63) ≤ k) (hhi : k < 2 ^ 63) :
    goTruncToI64 b = k := by
  have hp : (0 : Int) < 2 ^ 1074 := by positivity
  have hmag := f64valZ_to_mag b k hval
  have ht : f64magZ b / 2 ^ 1074 = k.natAbs := by
    rw [hmag]
    exact Nat.mul_div_cancel _ (by positivity)
  unfold f64valZ at hval
  by_cases hs : f64sign b = true
  · rw [if_pos hs] at hval
    have hk0 : k ≤ 0 := by
      by_contra hcon
      push_neg at hcon
      have h1 : (0 : Int) < k * 2 ^ 1074 := mul_pos (by omega) hp
      have h2 : (0 : Int) ≤ (f64magZ b : Int) := Int.ofNat_nonneg _
      omega
    unfold goTruncToI64
    rw [if_pos hfin]
    simp only [ht, hs]
    rw [if_pos trivial, if_pos (show k.natAbs ≤ 2 ^ 63 by omega)]
    omega
  · rw [Bool.not_eq_true] at hs
    rw [if_neg (by rw [hs]; exact Bool.false_ne_true)] at hval
    have hk0 : 0 ≤ k := by
      by_contra hcon
      push_neg at hcon
      have h1 : k * 2 ^ 1074 < 0 := mul_neg_of_neg_of_pos hcon hp
      have h2 : (0 : Int) ≤ (f64magZ b : Int) := Int.ofNat_nonneg _
      omega
    unfold goTruncToI64
    rw [if_pos hfin]
    simp only [ht, hs]
    rw [if_neg (by simp), if_pos (show k.natAbs < 2 ^ 63 by omega)]
    omega

/-- The Go truncation of a finite pattern with any integer value:
in-range values are returned exactly, out-of-range values produce the
amd64 indefinite integer `-2 ^ 63`. -/
theorem goTrunc_of_int (b : Nat) (k : Int) (hfin : f64Finite b = true)
    (hval : f64valZ b = k * 2 ^ 1074) :
    goTruncToI64 b = if -(2 ^ 63) ≤ k ∧ k < 2 ^ 63 then k else -(2 ^ 63) := by
  have hp : (0 : Int) < 2 ^ 1074 := by positivity
  by_cases hr : -(2 ^ 63) ≤ k ∧ k < 2 ^ 63
  · rw [if_pos hr]
    exact goTrunc_of_int_val b k hfin hval hr.1 hr.2
  · rw [if_neg hr]
    have hmag := f64valZ_to_mag b k hval
    have ht : f64magZ b / 2 ^ 1074 = k.natAbs := by
      rw [hmag]
      exact Nat.mul_div_cancel _ (by positivity)
    unfold goTruncToI64
    rw [if_pos hfin]
    simp only [ht]
    unfold f64valZ at hval
    by_cases hs : f64sign b = true
    · rw [if_pos hs] at hval
      have hk0 : k ≤ 0 := by
        by_contra hcon
        push_neg at hcon
        have h1 : (0 : Int) < k * 2 ^ 1074 := mul_pos (by omega) hp
        have h2 : (0 : Int) ≤ (f64magZ b : Int) := Int.ofNat_nonneg _
        omega
      simp only [hs]
      rw [if_pos trivial, if_neg (show ¬ k.natAbs ≤ 2 ^ 63 by omega)]
    · rw [Bool.not_eq_true] at hs
      rw [if_neg (by rw [hs]; exact Bool.false_ne_true)] at hval
      have hk0 : 0 ≤ k := by
        by_contra hcon
        push_neg at hcon
        have h1 : k * 2 ^ 1074 < 0 := mul_neg_of_neg_of_pos hcon hp
        have h2 : (0 : Int) ≤ (f64magZ b : Int) := Int.ofNat_nonneg _
        omega
      simp only [hs]
      rw [if_neg (by simp), if_neg (show ¬ k.natAbs < 2 ^ 63 by omega)]

/-- The Go truncation always lands in `[-2 ^ 63, 2 ^ 63]` in magnitude. -/
theorem goTrunc_range (b : Nat) : (goTruncToI64 b).natAbs ≤ 2 ^ 63 := by
  unfold goTruncToI64
  by_cases hfin : f64Finite b = true
  · rw [if_pos hfin]
    by_cases hs : f64sign b = true
    · rw [if_pos hs]
      by_cases hb : f64magZ b / 2 ^ 1074 ≤ 2 ^ 63
      · rw [if_pos hb]; omega
      · rw [if_neg hb]; omega
    · rw [if_neg hs]
      by_cases hb : f64magZ b / 2 ^ 1074 < 2 ^ 63
      · rw [if_pos hb]; omega
      · rw [if_neg hb]; omega
  · rw [if_neg hfin]
    omega

/-- A finite pattern whose value is not an integer multiple of
`2 ^ (-1074)`-scaled integers has magnitude below `2 ^ 52` (scaled). -/
theorem nonint_small_mag (b : Nat) (h : ∀ j : Int, f64valZ b ≠ j * 2 ^ 1074) :
    f64magZ b < 2 ^ 52 * 2 ^ 1074 := by
  by_contra hcon
  push_neg at hcon
  have hS := f64sig_lt b
  by_cases hE : f64scale b - 1 ≤ 1073
  · have h1 : f64magZ b < 2 ^ 53 * 2 ^ 1073 := by
      unfold f64magZ
      calc f64sig b * 2 ^ (f64scale b - 1)
          ≤ f64sig b * 2 ^ 1073 :=
            Nat.mul_le_mul_left _ (Nat.pow_le_pow_right (by omega) hE)
        _ < 2 ^ 53 * 2 ^ 1073 :=
            (Nat.mul_lt_mul_right (by positivity)).mpr hS
    have he : (2 : Nat) ^ 53 * 2 ^ 1073 = 2 ^ 52 * 2 ^ 1074 := by ring
    omega
  · push_neg at hE
    have hmageq : f64magZ b = f64sig b * 2 ^ (f64scale b - 1 - 1074) * 2 ^ 1074 := by
      unfold f64magZ
      rw [Nat.mul_assoc, ← pow_add]
      congr 2
      omega
    by_cases hs : f64sign b
    · refine h (-((f64sig b * 2 ^ (f64scale b - 1 - 1074) : Nat) : Int)) ?_
      unfold f64valZ
      rw [if_pos hs, hmageq]
      push_cast
      ring
    · refine h ((f64sig b * 2 ^ (f64scale b - 1 - 1074) : Nat) : Int) ?_
      unfold f64valZ
      rw [if_neg hs, hmageq]
      push_cast
      ring

theorem finite_flags (b : Nat) (h : f64Finite b = true) :
    f64IsNaN b = false ∧ f64IsInf b = false := by
  unfold f64Finite at h
  have hne : f64exp b ≠ 2047 := by simpa using h
  have hb : (f64exp b == 2047) = false := by simpa using hne
  unfold f64IsNaN f64IsInf
  rw [hb]
  simp

/-- Conversion of `-2 ^ 63` (the indefinite-integer result) is exact. -/
theorem f64ofInt_min_exact :
    f64Finite (f64ofInt (-(2 ^ 63) : Int)) = true ∧
    f64valZ (f64ofInt (-(2 ^ 63) : Int)) = (-(2 ^ 63) : Int) * 2 ^ 1074 := by
  have habs : (-(2 ^ 63) : Int).natAbs = 2 ^ 52 * 2 ^ 11 := by norm_num
  have hdy := natToF64_dyadic (2 ^ 52) 11 (Nat.le_refl _) (by norm_num) (by norm_num)
    (by norm_num)
  rw [← habs] at hdy
  obtain ⟨hf, hv⟩ := f64valZ_ofInt_of_mag (-(2 ^ 63) : Int) (by norm_num) _
    hdy.1 hdy.2.1 hdy.2.2.1 hdy.2.2.2
  refine ⟨hf, ?_⟩
  rw [hv, if_pos (by norm_num), habs]
  push_cast

/-- The central characterization: the encoder's Go test
`val == float64(int64(val))` holds exactly when the pattern is finite
with an integer value in the signed 64-bit range. -/
theorem goF64Eq_trunc_iff (b : Nat) :
    goF64Eq b (f64ofInt (goTruncToI64 b)) = true ↔
      (f64Finite b = true ∧
       ∃ k : Int, -(2 ^ 63) ≤ k ∧ k < 2 ^ 63 ∧ f64valZ b = k * 2 ^ 1074) := by
  have hyfin : f64Finite (f64ofInt (goTruncToI64 b)) = true :=
    (f64ofInt_int _ (goTrunc_range b)).1
  obtain ⟨j, hj⟩ := (f64ofInt_int _ (goTrunc_range b)).2
  obtain ⟨hynan, hyinf⟩ := finite_flags _ hyfin
  constructor
  · intro h
    unfold goF64Eq at h
    by_cases hbn : f64IsNaN b = true
    · rw [if_pos (by rw [hbn]; simp)] at h
      exact absurd h (by simp)
    · rw [Bool.not_eq_true] at hbn
      rw [if_neg (by rw [hbn, hynan]; simp)] at h
      by_cases hbf : f64Finite b = true
      · rw [if_pos (by rw [hbf, hyfin]; simp)] at h
        have hval : f64valZ b = j * 2 ^ 1074 := by
          have h2 : f64valZ b = f64valZ (f64ofInt (goTruncToI64 b)) := by simpa using h
          rw [h2, hj]
        refine ⟨hbf, ?_⟩
        by_cases hrange : -(2 ^ 63) ≤ j ∧ j < 2 ^ 63
        · exact ⟨j, hrange.1, hrange.2, hval⟩
        · exfalso
          have htr : goTruncToI64 b = -(2 ^ 63) := by
            rw [goTrunc_of_int b j hbf hval, if_neg hrange]
          have hymin : f64valZ (f64ofInt (goTruncToI64 b)) = (-(2 ^ 63) : Int) * 2 ^ 1074 := by
            rw [htr]
            exact f64ofInt_min_exact.2
          have hjm : j = -(2 ^ 63) := by
            have h2 : j * 2 ^ 1074 = (-(2 ^ 63) : Int) * 2 ^ 1074 := by
              rw [← hj, hymin]
            exact mul_right_cancel₀ (by positivity) h2
          exact hrange ⟨by omega, by omega⟩
      · have hbf' : f64Finite b = false := by
          cases hx : f64Finite b
          · rfl
          · exact absurd hx hbf
        rw [if_neg (by rw [hbf']; simp)] at h
        rw [hyinf] at h
        simp at h
  · rintro ⟨hbf, k, hlo, hhi, hval⟩
    have htr : goTruncToI64 b = k := goTrunc_of_int_val b k hbf hval hlo hhi
    have hrepr := f64ofInt_exact_repr b k hbf hval (by omega)
    obtain ⟨hbnan, hbinf⟩ := finite_flags b hbf
    unfold goF64Eq
    rw [htr]
    obtain ⟨hknan, hkinf⟩ := finite_flags _ hrepr.1
    rw [if_neg (by rw [hbnan, hknan]; simp)]
    rw [if_pos (by rw [hbf, hrepr.1]; simp)]
    rw [hval, hrepr.2]
    simp

/-! ## Consumption: a successful decode never grows the buffer -/

theorem safeReadN_eq_some {n : Nat} {bs xs rest : List Nat}
    (h : safeReadN n bs = some (xs, rest)) :
    n ≤ bs.length ∧ xs = bs.take n ∧ rest = bs.drop n := by
  unfold safeReadN at h
  split at h
  · exact Option.noConfusion h
  · cases h
    exact ⟨by omega, rfl, rfl⟩

theorem readString_consumes {len : Nat} {bs : List Nat} {v : GoVal} {rest : List Nat}
    (h : readString len bs = .ok v rest) : rest.length ≤ bs.length := by
  unfold readString at h
  cases hsr : safeReadN len bs with
  | none => rw [hsr] at h; exact DecRes.noConfusion h
  | some p =>
    obtain ⟨xs, rest1⟩ := p
    rw [hsr] at h
    cases h
    obtain ⟨-, -, hd⟩ := safeReadN_eq_some hsr
    subst hd
    simp

theorem readArray_consumes (step : List Nat → DecRes GoVal)
    (hstep : ∀ cs v rest, step cs = .ok v rest → rest.length ≤ cs.length) :
    ∀ (n : Nat) (bs : List Nat) (vs : List GoVal) (rest : List Nat),
      readArray step n bs = .ok vs rest → rest.length ≤ bs.length := by
  intro n
  induction n with
  | zero =>
    intro bs vs rest h
    cases h
    exact Nat.le_refl _
  | succ n ih =>
    intro bs vs rest
    simp only [readArray]
    cases hs : step bs with
    | ok v rest1 =>
      cases hr : readArray step n rest1 with
      | ok vs2 rest2 =>
        intro h
        simp [hr] at h
        obtain ⟨-, h2⟩ := h
        subst h2
        exact Nat.le_trans (ih rest1 vs2 rest2 hr) (hstep bs v rest1 hs)
      | fail e => intro h; simp [hr] at h
      | oob => intro h; simp [hr] at h
      | fuelOut => intro h; simp [hr] at h
    | fail e => intro h; simp at h
    | oob => intro h; simp at h
    | fuelOut => intro h; simp at h

theorem readMap_consumes (step : List Nat → DecRes GoVal)
    (hstep : ∀ cs v rest, step cs = .ok v rest → rest.length ≤ cs.length) :
    ∀ (n : Nat) (bs : List Nat) (kvs : List (List Nat × GoVal)) (rest : List Nat),
      readMap step n bs = .ok kvs rest → rest.length ≤ bs.length := by
  intro n
  induction n with
  | zero =>
    intro bs kvs rest h
    cases h
    exact Nat.le_refl _
  | succ n ih =>
    intro bs kvs rest
    simp only [readMap]
    cases hs : step bs with
    | ok keyRaw rest1 =>
      cases keyRaw with
      | str k =>
        cases hv : step rest1 with
        | ok v rest2 =>
          cases hr : readMap step n rest2 with
          | ok kvs2 rest3 =>
            intro h
            simp [hv, hr] at h
            obtain ⟨-, h2⟩ := h
            subst h2
            exact Nat.le_trans (Nat.le_trans (ih rest2 kvs2 rest3 hr)
              (hstep rest1 v rest2 hv)) (hstep bs (.str k) rest1 hs)
          | fail e => intro h; simp [hv, hr] at h
          | oob => intro h; simp [hv, hr] at h
          | fuelOut => intro h; simp [hv, hr] at h
        | fail e => intro h; simp [hv] at h
        | oob => intro h; simp [hv] at h
        | fuelOut => intro h; simp [hv] at h
      | null => intro h; simp at h
      | bool b => intro h; simp at h
      | int64 m => intro h; simp at h
      | int8 m => intro h; simp at h
      | int16 m => intro h; simp at h
      | int32 m => intro h; simp at h
      | uint64 m => intro h; simp at h
      | float32 m => intro h; simp at h
      | float64 m => intro h; simp at h
      | arr xs => intro h; simp at h
      | map kvs1 => intro h; simp at h
    | fail e => intro h; simp at h
    | oob => intro h; simp at h
    | fuelOut => intro h; simp at h

/-- One-step unfolding of the fuelled decoder on a nonempty buffer,
restated so that the dispatch is a chain of `ite`s amenable to
`split_ifs`. -/
theorem decodeF_succ_cons (f b : Nat) (bs' : List Nat) :
    decodeF (f + 1) (b :: bs') =
      (if b ≤ 0x7f then .ok (.int64 (b : Int)) bs'
      else if 0x80 ≤ b ∧ b ≤ 0x8f then wrapMap (readMap (decodeF f) (b &&& 0x0f) bs')
      else if 0x90 ≤ b ∧ b ≤ 0x9f then wrapArr (readArray (decodeF f) (b &&& 0x0f) bs')
      else if 0xa0 ≤ b ∧ b ≤ 0xbf then readString (b &&& 0x1f) bs'
      else if 0xe0 ≤ b then .ok (.int64 (sint 8 b)) bs'
      else if b = 0xc0 then .ok .null bs'
      else if b = 0xc2 then .ok (.bool false) bs'
      else if b = 0xc3 then .ok (.bool true) bs'
      else if b = 0xcc then
        match bs' with
        | [] => .ok (.uint64 0) []
        | v :: rest => .ok (.uint64 v) rest
      else if b = 0xcd then
        match safeReadN 2 bs' with
        | some (xs, rest) => .ok (.uint64 (beAcc xs)) rest
        | none => .oob
      else if b = 0xce then
        match safeReadN 4 bs' with
        | some (xs, rest) => .ok (.uint64 (beAcc xs)) rest
        | none => .oob
      else if b = 0xcf then
        match safeReadN 8 bs' with
        | some (xs, rest) => .ok (.uint64 (beAcc xs)) rest
        | none => .oob
      else if b = 0xd0 then
        match bs' with
        | [] => .ok (.int8 (sint 8 0)) []
        | v :: rest => .ok (.int8 (sint 8 v)) rest
      else if b = 0xd1 then
        match safeReadN 2 bs' with
        | some (xs, rest) => .ok (.int16 (sint 16 (beAcc xs))) rest
        | none => .oob
      else if b = 0xd2 then
        match safeReadN 4 bs' with
        | some (xs, rest) => .ok (.int32 (sint 32 (beAcc xs))) rest
        | none => .oob
      else if b = 0xd3 then
        match safeReadN 8 bs' with
        | some (xs, rest) => .ok (.int64 (sint 64 (beAcc xs))) rest
        | none => .oob
      else if b = 0xca then
        match safeReadN 4 bs' with
        | some (xs, rest) => .ok (.float32 (beAcc xs)) rest
        | none => .oob
      else if b = 0xcb then
        match safeReadN 8 bs' with
        | some (xs, rest) => .ok (.float64 (beAcc xs)) rest
        | none => .oob
      else if b = 0xd9 then
        match bs' with
        | [] => readString 0 []
        | l :: rest => readString l rest
      else if b = 0xda then
        match safeReadN 2 bs' with
        | some (xs, rest) => readString (beAcc xs) rest
        | none => .oob
      else if b = 0xdc then
        match safeReadN 2 bs' with
        | some (xs, rest) => wrapArr (readArray (decodeF f) (beAcc xs) rest)
        | none => .oob
      else if b = 0xdd then
        match safeReadN 4 bs' with
        | some (xs, rest) => wrapArr (readArray (decodeF f) (beAcc xs) rest)
        | none => .oob
      else if b = 0xde then
        match safeReadN 2 bs' with
        | some (xs, rest) => wrapMap (readMap (decodeF f) (beAcc xs) rest)
        | none => .oob
      else if b = 0xdf then
        match safeReadN 4 bs' with
        | some (xs, rest) => wrapMap (readMap (decodeF f) (beAcc xs) rest)
        | none => .oob
      else .fail (.unsupportedByte b)) :=
  rfl

theorem wrapArr_eq_ok {r : DecRes (List GoVal)} {v : GoVal} {rest : List Nat}
    (h : wrapArr r = .ok v rest) : ∃ vs, r = .ok vs rest ∧ v = .arr vs := by
  cases r with
  | ok vs rest1 =>
    have h2 : DecRes.ok (GoVal.arr vs) rest1 = DecRes.ok v rest := h
    cases h2
    exact ⟨vs, rfl, rfl⟩
  | fail e => exact DecRes.noConfusion h
  | oob => exact DecRes.noConfusion h
  | fuelOut => exact DecRes.noConfusion h

theorem wrapMap_eq_ok {r : DecRes (List (List Nat × GoVal))} {v : GoVal} {rest : List Nat}
    (h : wrapMap r = .ok v rest) : ∃ kvs, r = .ok kvs rest ∧ v = .map kvs := by
  cases r with
  | ok kvs rest1 =>
    have h2 : DecRes.ok (GoVal.map kvs) rest1 = DecRes.ok v rest := h
    cases h2
    exact ⟨kvs, rfl, rfl⟩
  | fail e => exact DecRes.noConfusion h
  | oob => exact DecRes.noConfusion h
  | fuelOut => exact DecRes.noConfusion h

theorem fixedRead_consumes (k : Nat) (mk : List Nat → GoVal) (bs' : List Nat)
    (v : GoVal) (rest : List Nat)
    (h : (match safeReadN k bs' with
          | some (xs, rest1) => DecRes.ok (mk xs) rest1
          | none => DecRes.oob) = DecRes.ok v rest) :
    rest.length ≤ bs'.length := by
  cases hsr : safeReadN k bs' with
  | none =>
    rw [hsr] at h
    exact DecRes.noConfusion h
  | some p =>
    obtain ⟨xs, rest1⟩ := p
    rw [hsr] at h
    have h2 : DecRes.ok (mk xs) rest1 = DecRes.ok v rest := h
    cases h2
    obtain ⟨-, -, hd⟩ := safeReadN_eq_some hsr
    subst hd
    simp

theorem lenRead_readString_consumes (k : Nat) (bs' : List Nat) (v : GoVal)
    (rest : List Nat)
    (h : (match safeReadN k bs' with
          | some (xs, rest1) => readString (beAcc xs) rest1
          | none => DecRes.oob) = DecRes.ok v rest) :
    rest.length ≤ bs'.length := by
  cases hsr : safeReadN k bs' with
  | none =>
    rw [hsr] at h
    exact DecRes.noConfusion h
  | some p =>
    obtain ⟨xs, rest1⟩ := p
    rw [hsr] at h
    have h2 : readString (beAcc xs) rest1 = DecRes.ok v rest := h
    have h3 := readString_consumes h2
    obtain ⟨-, -, hd⟩ := safeReadN_eq_some hsr
    subst hd
    simp at h3 ⊢
    omega

theorem lenRead_arr_consumes (k : Nat) (step : List Nat → DecRes GoVal)
    (hstep : ∀ cs v rest, step cs = .ok v rest → rest.length ≤ cs.length)
    (bs' : List Nat) (v : GoVal) (rest : List Nat)
    (h : (match safeReadN k bs' with
          | some (xs, rest1) => wrapArr (readArray step (beAcc xs) rest1)
          | none => DecRes.oob) = DecRes.ok v rest) :
    rest.length ≤ bs'.length := by
  cases hsr : safeReadN k bs' with
  | none =>
    rw [hsr] at h
    exact DecRes.noConfusion h
  | some p =>
    obtain ⟨xs, rest1⟩ := p
    rw [hsr] at h
    have h2 : wrapArr (readArray step (beAcc xs) rest1) = DecRes.ok v rest := h
    obtain ⟨vs, hr, -⟩ := wrapArr_eq_ok h2
    have h3 := readArray_consumes step hstep _ _ _ _ hr
    obtain ⟨-, -, hd⟩ := safeReadN_eq_some hsr
    subst hd
    simp at h3 ⊢
    omega

theorem lenRead_map_consumes (k : Nat) (step : List Nat → DecRes GoVal)
    (hstep : ∀ cs v rest, step cs = .ok v rest → rest.length ≤ cs.length)
    (bs' : List Nat) (v : GoVal) (rest : List Nat)
    (h : (match safeReadN k bs' with
          | some (xs, rest1) => wrapMap (readMap step (beAcc xs) rest1)
          | none => DecRes.oob) = DecRes.ok v rest) :
    rest.length ≤ bs'.length := by
  cases hsr : safeReadN k bs' with
  | none =>
    rw [hsr] at h
    exact DecRes.noConfusion h
  | some p =>
    obtain ⟨xs, rest1⟩ := p
    rw [hsr] at h
    have h2 : wrapMap (readMap step (beAcc xs) rest1) = DecRes.ok v rest := h
    obtain ⟨kvs, hr, -⟩ := wrapMap_eq_ok h2
    have h3 := readMap_consumes step hstep _ _ _ _ hr
    obtain ⟨-, -, hd⟩ := safeReadN_eq_some hsr
    subst hd
    simp at h3 ⊢
    omega

set_option maxHeartbeats 1600000 in
theorem decodeF_consumes :
    ∀ (f : Nat) (bs : List Nat) (v : GoVal) (rest : List Nat),
      decodeF f bs = .ok v rest → rest.length ≤ bs.length := by
  intro f
  induction f with
  | zero => intro bs v rest h; exact DecRes.noConfusion h
  | succ f ih =>
    intro bs v rest
    cases bs with
    | nil => intro h; exact DecRes.noConfusion h
    | cons b bs' =>
      rw [decodeF_succ_cons]
      by_cases c1 : b ≤ 0x7f
      · rw [if_pos c1]; intro h; cases h; simp only [List.length_cons]; omega
      rw [if_neg c1]
      by_cases c2 : 0x80 ≤ b ∧ b ≤ 0x8f
      · rw [if_pos c2]
        intro h
        obtain ⟨kvs, hr, -⟩ := wrapMap_eq_ok h
        have := readMap_consumes (decodeF f) ih _ _ _ _ hr
        simp only [List.length_cons]
        omega
      rw [if_neg c2]
      by_cases c3 : 0x90 ≤ b ∧ b ≤ 0x9f
      · rw [if_pos c3]
        intro h
        obtain ⟨vs, hr, -⟩ := wrapArr_eq_ok h
        have := readArray_consumes (decodeF f) ih _ _ _ _ hr
        simp only [List.length_cons]
        omega
      rw [if_neg c3]
      by_cases c4 : 0xa0 ≤ b ∧ b ≤ 0xbf
      · rw [if_pos c4]
        intro h
        have := readString_consumes h
        simp only [List.length_cons]
        omega
      rw [if_neg c4]
      by_cases c5 : 0xe0 ≤ b
      · rw [if_pos c5]; intro h; cases h; simp only [List.length_cons]; omega
      rw [if_neg c5]
      by_cases c6 : b = 0xc0
      · rw [if_pos c6]; intro h; cases h; simp only [List.length_cons]; omega
      rw [if_neg c6]
      by_cases c7 : b = 0xc2
      · rw [if_pos c7]; intro h; cases h; simp only [List.length_cons]; omega
      rw [if_neg c7]
      by_cases c8 : b = 0xc3
      · rw [if_pos c8]; intro h; cases h; simp only [List.length_cons]; omega
      rw [if_neg c8]
      by_cases c9 : b = 0xcc
      · rw [if_pos c9]
        cases bs' with
        | nil => intro h; cases h; simp
        | cons v1 r1 => intro h; cases h; simp only [List.length_cons]; omega
      rw [if_neg c9]
      by_cases c10 : b = 0xcd
      · rw [if_pos c10]
        intro h
        have := fixedRead_consumes 2 (fun xs => .uint64 (beAcc xs)) bs' v rest h
        simp only [List.length_cons]
        omega
      rw [if_neg c10]
      by_cases c11 : b = 0xce
      · rw [if_pos c11]
        intro h
        have := fixedRead_consumes 4 (fun xs => .uint64 (beAcc xs)) bs' v rest h
        simp only [List.length_cons]
        omega
      rw [if_neg c11]
      by_cases c12 : b = 0xcf
      · rw [if_pos c12]
        intro h
        have := fixedRead_consumes 8 (fun xs => .uint64 (beAcc xs)) bs' v rest h
        simp only [List.length_cons]
        omega
      rw [if_neg c12]
      by_cases c13 : b = 0xd0
      · rw [if_pos c13]
        cases bs' with
        | nil => intro h; cases h; simp
        | cons v1 r1 => intro h; cases h; simp only [List.length_cons]; omega
      rw [if_neg c13]
      by_cases c14 : b = 0xd1
      · rw [if_pos c14]
        intro h
        have := fixedRead_consumes 2 (fun xs => .int16 (sint 16 (beAcc xs))) bs' v rest h
        simp only [List.length_cons]
        omega
      rw [if_neg c14]
      by_cases c15 : b = 0xd2
      · rw [if_pos c15]
        intro h
        have := fixedRead_consumes 4 (fun xs => .int32 (sint 32 (beAcc xs))) bs' v rest h
        simp only [List.length_cons]
        omega
      rw [if_neg c15]
      by_cases c16 : b = 0xd3
      · rw [if_pos c16]
        intro h
        have := fixedRead_consumes 8 (fun xs => .int64 (sint 64 (beAcc xs))) bs' v rest h
        simp only [List.length_cons]
        omega
      rw [if_neg c16]
      by_cases c17 : b = 0xca
      · rw [if_pos c17]
        intro h
        have := fixedRead_consumes 4 (fun xs => .float32 (beAcc xs)) bs' v rest h
        simp only [List.length_cons]
        omega
      rw [if_neg c17]
      by_cases c18 : b = 0xcb
      · rw [if_pos c18]
        intro h
        have := fixedRead_consumes 8 (fun xs => .float64 (beAcc xs)) bs' v rest h
        simp only [List.length_cons]
        omega
      rw [if_neg c18]
      by_cases c19 : b = 0xd9
      · rw [if_pos c19]
        cases bs' with
        | nil =>
          intro h
          have := readString_consumes h
          simp only [List.length_nil] at this
          simp only [List.length_cons]
          omega
        | cons l r1 =>
          intro h
          have := readString_consumes h
          simp only [List.length_cons] at this ⊢
          omega
      rw [if_neg c19]
      by_cases c20 : b = 0xda
      · rw [if_pos c20]
        intro h
        have := lenRead_readString_consumes 2 bs' v rest h
        simp only [List.length_cons]
        omega
      rw [if_neg c20]
      by_cases c21 : b = 0xdc
      · rw [if_pos c21]
        intro h
        have := lenRead_arr_consumes 2 (decodeF f) ih bs' v rest h
        simp only [List.length_cons]
        omega
      rw [if_neg c21]
      by_cases c22 : b = 0xdd
      · rw [if_pos c22]
        intro h
        have := lenRead_arr_consumes 4 (decodeF f) ih bs' v rest h
        simp only [List.length_cons]
        omega
      rw [if_neg c22]
      by_cases c23 : b = 0xde
      · rw [if_pos c23]
        intro h
        have := lenRead_map_consumes 2 (decodeF f) ih bs' v rest h
        simp only [List.length_cons]
        omega
      rw [if_neg c23]
      by_cases c24 : b = 0xdf
      · rw [if_pos c24]
        intro h
        have := lenRead_map_consumes 4 (decodeF f) ih bs' v rest h
        simp only [List.length_cons]
        omega
      rw [if_neg c24]
      intro h
      exact DecRes.noConfusion h

/-! ## Fuel stability: any fuel above the buffer length decodes alike -/

theorem readArray_congr (step1 step2 : List Nat → DecRes GoVal) (L : Nat)
    (hagree : ∀ cs : List Nat, cs.length ≤ L → step1 cs = step2 cs)
    (hcons : ∀ (cs : List Nat) (v : GoVal) (rest : List Nat),
      step1 cs = .ok v rest → rest.length ≤ cs.length) :
    ∀ (n : Nat) (bs : List Nat), bs.length ≤ L →
      readArray step1 n bs = readArray step2 n bs := by
  intro n
  induction n with
  | zero => intro bs _; rfl
  | succ n ih =>
    intro bs hbs
    simp only [readArray]
    rw [← hagree bs hbs]
    cases hs : step1 bs with
    | ok v rest1 =>
      dsimp only
      rw [ih rest1 (Nat.le_trans (hcons bs v rest1 hs) hbs)]
    | fail e => rfl
    | oob => rfl
    | fuelOut => rfl

theorem readMap_congr (step1 step2 : List Nat → DecRes GoVal) (L : Nat)
    (hagree : ∀ cs : List Nat, cs.length ≤ L → step1 cs = step2 cs)
    (hcons : ∀ (cs : List Nat) (v : GoVal) (rest : List Nat),
      step1 cs = .ok v rest → rest.length ≤ cs.length) :
    ∀ (n : Nat) (bs : List Nat), bs.length ≤ L →
      readMap step1 n bs = readMap step2 n bs := by
  intro n
  induction n with
  | zero => intro bs _; rfl
  | succ n ih =>
    intro bs hbs
    simp only [readMap]
    rw [← hagree bs hbs]
    cases hs : step1 bs with
    | ok keyRaw rest1 =>
      cases keyRaw with
      | str k =>
        have hr1 : rest1.length ≤ L :=
          Nat.le_trans (hcons bs (.str k) rest1 hs) hbs
        dsimp only
        rw [← hagree rest1 hr1]
        cases hv : step1 rest1 with
        | ok v rest2 =>
          dsimp only
          rw [ih rest2 (Nat.le_trans (hcons rest1 v rest2 hv) hr1)]
        | fail e => rfl
        | oob => rfl
        | fuelOut => rfl
      | null => rfl
      | bool b => rfl
      | int64 m => rfl
      | int8 m => rfl
      | int16 m => rfl
      | int32 m => rfl
      | uint64 m => rfl
      | float32 m => rfl
      | float64 m => rfl
      | arr xs => rfl
      | map kvs => rfl
    | fail e => rfl
    | oob => rfl
    | fuelOut => rfl

set_option maxHeartbeats 1600000 in
theorem decodeF_stable : ∀ (f g : Nat) (bs : List Nat),
    bs.length < f → bs.length < g → decodeF f bs = decodeF g bs := by
  intro f
  induction f using Nat.strong_induction_on with
  | _ f ihf =>
    intro g bs hf hg
    obtain ⟨f', rfl⟩ : ∃ f', f = f' + 1 := ⟨f - 1, by omega⟩
    obtain ⟨g', rfl⟩ : ∃ g', g = g' + 1 := ⟨g - 1, by omega⟩
    cases bs with
    | nil => rfl
    | cons b bs' =>
      have hlen : bs'.length < f' ∧ bs'.length < g' := by
        simp only [List.length_cons] at hf hg
        omega
      have hagree : ∀ cs : List Nat, cs.length ≤ bs'.length →
          decodeF f' cs = decodeF g' cs := by
        intro cs hcs
        exact ihf f' (by omega) g' cs (by omega) (by omega)
      have hcons : ∀ (cs : List Nat) (v : GoVal) (rest : List Nat),
          decodeF f' cs = .ok v rest → rest.length ≤ cs.length :=
        fun cs v rest h => decodeF_consumes f' cs v rest h
      rw [decodeF_succ_cons, decodeF_succ_cons]
      rw [readMap_congr (decodeF f') (decodeF g') bs'.length hagree hcons
        (b &&& 0x0f) bs' (Nat.le_refl _)]
      rw [readArray_congr (decodeF f') (decodeF g') bs'.length hagree hcons
        (b &&& 0x0f) bs' (Nat.le_refl _)]
      have e_dc : (match safeReadN 2 bs' with
          | some (xs, rest) => wrapArr (readArray (decodeF f') (beAcc xs) rest)
          | none => DecRes.oob) =
          (match safeReadN 2 bs' with
          | some (xs, rest) => wrapArr (readArray (decodeF g') (beAcc xs) rest)
          | none => DecRes.oob) := by
        cases hsr : safeReadN 2 bs' with
        | none => rfl
        | some p =>
          obtain ⟨xs, rest⟩ := p
          obtain ⟨-, -, hd⟩ := safeReadN_eq_some hsr
          subst hd
          dsimp only
          rw [readArray_congr (decodeF f') (decodeF g') bs'.length hagree hcons
            (beAcc xs) (bs'.drop 2) (by simp)]
      have e_dd : (match safeReadN 4 bs' with
          | some (xs, rest) => wrapArr (readArray (decodeF f') (beAcc xs) rest)
          | none => DecRes.oob) =
          (match safeReadN 4 bs' with
          | some (xs, rest) => wrapArr (readArray (decodeF g') (beAcc xs) rest)
          | none => DecRes.oob) := by
        cases hsr : safeReadN 4 bs' with
        | none => rfl
        | some p =>
          obtain ⟨xs, rest⟩ := p
          obtain ⟨-, -, hd⟩ := safeReadN_eq_some hsr
          subst hd
          dsimp only
          rw [readArray_congr (decodeF f') (decodeF g') bs'.length hagree hcons
            (beAcc xs) (bs'.drop 4) (by simp)]
      have e_de : (match safeReadN 2 bs' with
          | some (xs, rest) => wrapMap (readMap (decodeF f') (beAcc xs) rest)
          | none => DecRes.oob) =
          (match safeReadN 2 bs' with
          | some (xs, rest) => wrapMap (readMap (decodeF g') (beAcc xs) rest)
          | none => DecRes.oob) := by
        cases hsr : safeReadN 2 bs' with
        | none => rfl
        | some p =>
          obtain ⟨xs, rest⟩ := p
          obtain ⟨-, -, hd⟩ := safeReadN_eq_some hsr
          subst hd
          dsimp only
          rw [readMap_congr (decodeF f') (decodeF g') bs'.length hagree hcons
            (beAcc xs) (bs'.drop 2) (by simp)]
      have e_df : (match safeReadN 4 bs' with
          | some (xs, rest) => wrapMap (readMap (decodeF f') (beAcc xs) rest)
          | none => DecRes.oob) =
          (match safeReadN 4 bs' with
          | some (xs, rest) => wrapMap (readMap (decodeF g') (beAcc xs) rest)
          | none => DecRes.oob) := by
        cases hsr : safeReadN 4 bs' with
        | none => rfl
        | some p =>
          obtain ⟨xs, rest⟩ := p
          obtain ⟨-, -, hd⟩ := safeReadN_eq_some hsr
          subst hd
          dsimp only
          rw [readMap_congr (decodeF f') (decodeF g') bs'.length hagree hcons
            (beAcc xs) (bs'.drop 4) (by simp)]
      rw [e_dc, e_dd, e_de, e_df]

/-- The decoder entry point agrees with the fuelled decoder at any fuel
exceeding the buffer length. -/
theorem decodeValue_eq_decodeF (f : Nat) (bs : List Nat) (h : bs.length < f) :
    decodeValue bs = decodeF f bs :=
  decodeF_stable (bs.length + 1) f bs (Nat.lt_succ_self _) h

/-! ## Small decoding equations for fixed-width tags -/

theorem decodeValue_cc (v : Nat) (rest : List Nat) :
    decodeValue (0xcc :: v :: rest) = .ok (.uint64 v) rest := rfl

theorem decodeValue_cd (b1 b2 : Nat) (rest : List Nat) :
    decodeValue (0xcd :: b1 :: b2 :: rest) = .ok (.uint64 (beAcc [b1, b2])) rest := rfl

theorem decodeValue_ce (b1 b2 b3 b4 : Nat) (rest : List Nat) :
    decodeValue (0xce :: b1 :: b2 :: b3 :: b4 :: rest) =
      .ok (.uint64 (beAcc [b1, b2, b3, b4])) rest := rfl

theorem decodeValue_d0 (v : Nat) (rest : List Nat) :
    decodeValue (0xd0 :: v :: rest) = .ok (.int8 (sint 8 v)) rest := rfl

theorem decodeValue_d1 (b1 b2 : Nat) (rest : List Nat) :
    decodeValue (0xd1 :: b1 :: b2 :: rest) =
      .ok (.int16 (sint 16 (beAcc [b1, b2]))) rest := rfl

theorem decodeValue_d2 (b1 b2 b3 b4 : Nat) (rest : List Nat) :
    decodeValue (0xd2 :: b1 :: b2 :: b3 :: b4 :: rest) =
      .ok (.int32 (sint 32 (beAcc [b1, b2, b3, b4]))) rest := rfl

/-! ## Claim theorems -/

/-- C2: the encoder's integer boundary tags are exact.  `127` selects
the positive fixint (the single tag byte `0x7f`) out of both integer
encoders, `128` selects the uint8 family (`0xcc` plus one payload byte)
out of the unsigned encoder, `-32` selects the negative fixint (single
byte `0xe0`), and `-33` selects the int8 family (`0xd0` followed by one
payload byte). -/
theorem claim2_boundary_tag_families :
    encodeSignedInt 127 = [0x7f] ∧
    encodeUnsignedInt 127 = [0x7f] ∧
    encodeUnsignedInt 128 = [0xcc, 0x80] ∧
    encodeSignedInt (-32) = [0xe0] ∧
    encodeSignedInt (-33) = [0xd0, 0xdf] := by
  decide

/-- C3 is violated by the decoder snapshot: `[0xcc]` is a strict prefix
of the valid encoding `[0xcc, 0x80]` of `128`, yet decoding it returns
the successful value `uint64 0` (the discarded `ReadByte` error leaves
the zero byte), not a truncation error. -/
theorem claim3_truncated_prefix_decodes_successfully :
    encodeUnsignedInt 128 = [0xcc, 0x80] ∧
    decodeValue [0xcc] = .ok (.uint64 0) [] :=
  ⟨by decide, rfl⟩

/-- C10 is violated by the decoder snapshot: on the single byte `0xcd`
the discarded `safeReadN` error is followed by an index into the `nil`
slice, a runtime panic (out-of-bounds access), not a returned error. -/
theorem claim10_short_read_panics :
    decodeValue [0xcd] = .oob :=
  rfl

/-- C5 as stated is false: the two-byte message `[0xd0, 0x05]` decodes
successfully to a value of the native `int8` type, not to either 64-bit
integer type. -/
theorem claim5_counterexample :
    decodeValue [0xd0, 0x05] = .ok (.int8 5) [] ∧
    GoVal.is64BitInt (.int8 5) = false :=
  ⟨rfl, rfl⟩

/-- C5 amended: the decoder widens the narrower unsigned widths
(`uint8`, `uint16`, `uint32`) to `uint64`, but returns the narrower
signed widths (`int8`, `int16`, `int32`) at their native type without
widening to `int64`. -/
theorem claim5_amended_width_handling (b1 b2 b3 b4 : Nat) (rest : List Nat)
    (h2 : b2 < 256) (h3 : b3 < 256) (h4 : b4 < 256) :
    decodeValue (0xcc :: b1 :: rest) = .ok (.uint64 b1) rest ∧
    decodeValue (0xcd :: b1 :: b2 :: rest) = .ok (.uint64 (b1 * 256 + b2)) rest ∧
    decodeValue (0xce :: b1 :: b2 :: b3 :: b4 :: rest) =
      .ok (.uint64 (((b1 * 256 + b2) * 256 + b3) * 256 + b4)) rest ∧
    decodeValue (0xd0 :: b1 :: rest) = .ok (.int8 (sint 8 b1)) rest ∧
    decodeValue (0xd1 :: b1 :: b2 :: rest) =
      .ok (.int16 (sint 16 (b1 * 256 + b2))) rest ∧
    decodeValue (0xd2 :: b1 :: b2 :: b3 :: b4 :: rest) =
      .ok (.int32 (sint 32 (((b1 * 256 + b2) * 256 + b3) * 256 + b4))) rest := by
  refine ⟨decodeValue_cc b1 rest, ?_, ?_, decodeValue_d0 b1 rest, ?_, ?_⟩
  · rw [decodeValue_cd, beAcc_pair b1 b2 h2]
  · rw [decodeValue_ce, beAcc_quad b1 b2 b3 b4 h2 h3 h4]
  · rw [decodeValue_d1, beAcc_pair b1 b2 h2]
  · rw [decodeValue_d2, beAcc_quad b1 b2 b3 b4 h2 h3 h4]

/-- Witness for the amended C5: the wire value `int8 0xff` decodes to
the native-width value `int8 (-1)`. -/
theorem claim5_amended_witness :
    (0 : Nat) < 256 ∧ decodeValue [0xd0, 0xff] = .ok (.int8 (-1)) [] := by
  refine ⟨by decide, ?_⟩
  have h := (claim5_amended_width_handling 0xff 0 0 0 []
    (by decide) (by decide) (by decide)).2.2.2.1
  norm_num [sint] at h
  exact h

/-- C8: every leading byte outside the recognized tag set — `0xc1`,
`0xc4`–`0xc9`, `0xd4`–`0xd8`, `0xdb` — fails decoding with an error
naming the offending byte, and the empty input fails with the empty
buffer error. -/
theorem claim8_unrecognized_tags_fail (b : Nat) (rest : List Nat)
    (hb : b = 0xc1 ∨ (0xc4 ≤ b ∧ b ≤ 0xc9) ∨ (0xd4 ≤ b ∧ b ≤ 0xd8) ∨ b = 0xdb) :
    decodeValue (b :: rest) = .fail (.unsupportedByte b) ∧
    decodeValue [] = .fail .emptyBuffer := by
  refine ⟨?_, rfl⟩
  rcases hb with rfl | ⟨h1, h2⟩ | ⟨h1, h2⟩ | rfl
  · rfl
  · interval_cases b <;> rfl
  · interval_cases b <;> rfl
  · rfl

/-- Witness for C8 at the reserved byte `0xc1` on empty remainder. -/
theorem claim8_witness :
    decodeValue [0xc1] = .fail (.unsupportedByte 0xc1) ∧
    decodeValue [] = .fail .emptyBuffer :=
  claim8_unrecognized_tags_fail 0xc1 [] (Or.inl rfl)

/-- C6: string tag selection is exactly three-tiered by byte length —
fixstr with the length in the tag's low bits up to 31 bytes, `0xd9`
plus one length byte up to 255 bytes, and `0xda` plus the two bytes
`byte(len >> 8), byte(len)` beyond; for lengths up to 65535 those two
bytes are the big-endian length. -/
theorem claim6_string_tag_tiers (s : List Nat) :
    (s.length ≤ 31 → encodeValue (.str s) = (0xa0 ||| s.length) :: s) ∧
    (32 ≤ s.length → s.length ≤ 255 → encodeValue (.str s) = 0xd9 :: s.length :: s) ∧
    (256 ≤ s.length →
      encodeValue (.str s) = 0xda :: (s.length >>> 8) % 256 :: s.length % 256 :: s) ∧
    (256 ≤ s.length → s.length ≤ 65535 →
      (s.length >>> 8) % 256 * 256 + s.length % 256 = s.length) := by
  refine ⟨fun h1 => ?_, fun h1 h2 => ?_, fun h1 => ?_, fun h1 h2 => ?_⟩
  · simp only [encodeValue, encodeStr, if_pos h1, List.cons_append, List.nil_append,
      Nat.mod_eq_of_lt (by omega : s.length < 256)]
  · simp only [encodeValue, encodeStr, if_neg (by omega : ¬ s.length ≤ 31),
      if_pos h2, List.cons_append, List.nil_append,
      Nat.mod_eq_of_lt (by omega : s.length < 256)]
  · simp only [encodeValue, encodeStr, if_neg (by omega : ¬ s.length ≤ 31),
      if_neg (by omega : ¬ s.length ≤ 255), List.cons_append, List.nil_append]
  · rw [Nat.shiftRight_eq_div_pow]
    omega

/-- Witness for C6 at the boundary lengths 31, 32, 255 and 256. -/
theorem claim6_witness :
    encodeValue (.str (List.replicate 31 0x61)) =
      (0xa0 ||| 31) :: List.replicate 31 0x61 ∧
    encodeValue (.str (List.replicate 32 0x61)) =
      0xd9 :: 32 :: List.replicate 32 0x61 ∧
    encodeValue (.str (List.replicate 255 0x61)) =
      0xd9 :: 255 :: List.replicate 255 0x61 ∧
    encodeValue (.str (List.replicate 256 0x61)) =
      0xda :: 1 :: 0 :: List.replicate 256 0x61 := by
  refine ⟨?_, ?_, ?_, ?_⟩
  · have h := (claim6_string_tag_tiers (List.replicate 31 0x61)).1 (by simp)
    simpa using h
  · have h := (claim6_string_tag_tiers (List.replicate 32 0x61)).2.1 (by simp) (by simp)
    simpa using h
  · have h := (claim6_string_tag_tiers (List.replicate 255 0x61)).2.1 (by simp) (by simp)
    simpa using h
  · have h := (claim6_string_tag_tiers (List.replicate 256 0x61)).2.2.1 (by simp)
    simpa using h

/-- C9: decoding the output of `encodeUnsignedInt` recovers exactly the
unsigned value `n`, consuming the whole buffer: values up to 127 pass
through the single positive-fixint byte (decoded at the signed 64-bit
type with the same numeric value), and larger values pass through the
`0xcc`–`0xcf` tags with a big-endian payload of matching width, decoded
as `uint64 n`. -/
theorem claim9_unsigned_roundtrip (n : Nat) (hn : n < 2 ^ 64) :
    decodeValue (encodeUnsignedInt n) =
      .ok (if n ≤ 127 then GoVal.int64 (n : Int) else GoVal.uint64 n) [] ∧
    (n ≤ 127 → encodeUnsignedInt n = [n]) ∧
    (128 ≤ n → n ≤ 0xff → encodeUnsignedInt n = [0xcc, n]) ∧
    (0x100 ≤ n → n ≤ 0xffff → encodeUnsignedInt n = 0xcd :: beBytes 2 n) ∧
    (0x10000 ≤ n → n ≤ 0xffffffff → encodeUnsignedInt n = 0xce :: beBytes 4 n) ∧
    (0x100000000 ≤ n → encodeUnsignedInt n = 0xcf :: beBytes 8 n) := by
  rcases Nat.lt_or_ge n 128 with hr | hr
  · have he : encodeUnsignedInt n = [n] := by
      simp [encodeUnsignedInt, if_pos (by omega : n ≤ 127), Nat.mod_eq_of_lt (by omega : n < 256)]
    refine ⟨?_, fun _ => he, fun h _ => by omega, fun h _ => by omega,
      fun h _ => by omega, fun h => by omega⟩
    rw [he, if_pos (by omega : n ≤ 127)]
    show decodeF 2 [n] = .ok (.int64 (n : Int)) []
    simp [decodeF, if_pos (by omega : n ≤ 0x7f)]
  rcases Nat.lt_or_ge n 256 with hr2 | hr2
  · have he : encodeUnsignedInt n = [0xcc, n] := by
      simp [encodeUnsignedInt, beBytes, if_neg (by omega : ¬ n ≤ 127),
        if_pos (by omega : n ≤ 0xff), Nat.mod_eq_of_lt (by omega : n < 256)]
    refine ⟨?_, fun h => by omega, fun _ _ => he, fun h _ => by omega,
      fun h _ => by omega, fun h => by omega⟩
    rw [he, if_neg (by omega : ¬ n ≤ 127)]
    exact decodeValue_cc n []
  rcases Nat.lt_or_ge n 65536 with hr3 | hr3
  · have he : encodeUnsignedInt n = 0xcd :: beBytes 2 n := by
      simp [encodeUnsignedInt, if_neg (by omega : ¬ n ≤ 127),
        if_neg (by omega : ¬ n ≤ 0xff), if_pos (by omega : n ≤ 0xffff)]
    refine ⟨?_, fun h => by omega, fun h _ => by omega, fun _ _ => he,
      fun h _ => by omega, fun h => by omega⟩
    rw [he, if_neg (by omega : ¬ n ≤ 127)]
    have e2 : beBytes 2 n = [(n >>> 8) % 256, (n >>> 0) % 256] := rfl
    rw [e2, decodeValue_cd, beAcc_pair _ _ (Nat.mod_lt _ (by omega))]
    have : (n >>> 8) % 256 * 256 + (n >>> 0) % 256 = n := by
      simp only [Nat.shiftRight_eq_div_pow]
      omega
    rw [this]
  rcases Nat.lt_or_ge n 4294967296 with hr4 | hr4
  · have he : encodeUnsignedInt n = 0xce :: beBytes 4 n := by
      simp [encodeUnsignedInt, if_neg (by omega : ¬ n ≤ 127),
        if_neg (by omega : ¬ n ≤ 0xff), if_neg (by omega : ¬ n ≤ 0xffff),
        if_pos (by omega : n ≤ 0xffffffff)]
    refine ⟨?_, fun h => by omega, fun h _ => by omega, fun h _ => by omega,
      fun _ _ => he, fun h => by omega⟩
    rw [he, if_neg (by omega : ¬ n ≤ 127)]
    have e4 : beBytes 4 n =
        [(n >>> 24) % 256, (n >>> 16) % 256, (n >>> 8) % 256, (n >>> 0) % 256] := rfl
    rw [e4, decodeValue_ce,
      beAcc_quad _ _ _ _ (Nat.mod_lt _ (by omega)) (Nat.mod_lt _ (by omega))
        (Nat.mod_lt _ (by omega))]
    have : ((n >>> 24) % 256 * 256 + (n >>> 16) % 256) * 256 + (n >>> 8) % 256 = n / 256 := by
      simp only [Nat.shiftRight_eq_div_pow]
      omega
    rw [this]
    have : n / 256 * 256 + (n >>> 0) % 256 = n := by
      simp only [Nat.shiftRight_eq_div_pow]
      omega
    rw [this]
  · have he : encodeUnsignedInt n = 0xcf :: beBytes 8 n := by
      simp [encodeUnsignedInt, if_neg (by omega : ¬ n ≤ 127),
        if_neg (by omega : ¬ n ≤ 0xff), if_neg (by omega : ¬ n ≤ 0xffff),
        if_neg (by omega : ¬ n ≤ 0xffffffff)]
    refine ⟨?_, fun h => by omega, fun h _ => by omega, fun h _ => by omega,
      fun h hh => by omega, fun _ => he⟩
    rw [he, if_neg (by omega : ¬ n ≤ 127)]
    show decodeF ((0xcf :: beBytes 8 n).length + 1) (0xcf :: beBytes 8 n) =
      .ok (.uint64 n) []
    have hlen : (0xcf :: beBytes 8 n).length + 1 = 10 := by
      simp [beBytes_length]
    rw [hlen]
    have hsr : safeReadN 8 (beBytes 8 n) = some (beBytes 8 n, []) := by
      have := safeReadN_exact 8 (beBytes 8 n) [] (beBytes_length 8 n)
      simpa using this
    simp only [decodeF]
    norm_num
    rw [hsr]
    show DecRes.ok (GoVal.uint64 (beAcc (beBytes 8 n))) [] = DecRes.ok (GoVal.uint64 n) []
    rw [beAcc_beBytes 8 n (by norm_num; omega)]

/-- Witness for C9 at `n = 300` (the `uint16` family). -/
theorem claim9_witness :
    (300 : Nat) < 2 ^ 64 ∧
    decodeValue (encodeUnsignedInt 300) = .ok (.uint64 300) [] := by
  refine ⟨by norm_num, ?_⟩
  have h := (claim9_unsigned_roundtrip 300 (by norm_num)).1
  norm_num at h
  exact h

/-- C7: whenever the map-decoding loop reaches a key position whose
decode yields a non-string value, it fails with the structural
non-string-map-key error; lifted to the wire, a fixmap, `map16` or
`map32` header with a positive pair count whose first key decodes to a
non-string value makes the whole decode fail with that error.  (The key
is never coerced: the only successful continuation requires the decoded
key to be of string type.) -/
theorem claim7_nonstring_key_fails :
    (∀ (step : List Nat → DecRes GoVal) (n : Nat) (bs : List Nat)
        (v : GoVal) (rest : List Nat),
      step bs = .ok v rest → v.isStr = false →
      readMap step (n + 1) bs = .fail .nonStringKey) ∧
    (∀ (m : Nat) (bs : List Nat) (v : GoVal) (rest : List Nat),
      0x81 ≤ m → m ≤ 0x8f →
      decodeValue bs = .ok v rest → v.isStr = false →
      decodeValue (m :: bs) = .fail .nonStringKey) ∧
    (∀ (c1 c2 : Nat) (bs : List Nat) (v : GoVal) (rest : List Nat),
      0 < beAcc [c1, c2] →
      decodeValue bs = .ok v rest → v.isStr = false →
      decodeValue (0xde :: c1 :: c2 :: bs) = .fail .nonStringKey) ∧
    (∀ (c1 c2 c3 c4 : Nat) (bs : List Nat) (v : GoVal) (rest : List Nat),
      0 < beAcc [c1, c2, c3, c4] →
      decodeValue bs = .ok v rest → v.isStr = false →
      decodeValue (0xdf :: c1 :: c2 :: c3 :: c4 :: bs) = .fail .nonStringKey) := by
  have core : ∀ (step : List Nat → DecRes GoVal) (n : Nat) (bs : List Nat)
      (v : GoVal) (rest : List Nat),
      step bs = .ok v rest → v.isStr = false →
      readMap step (n + 1) bs = .fail .nonStringKey := by
    intro step n bs v rest hstep hv
    simp only [readMap]
    rw [hstep]
    dsimp only
    cases v with
    | str s => simp [GoVal.isStr] at hv
    | null => rfl
    | bool b => rfl
    | int64 m => rfl
    | int8 m => rfl
    | int16 m => rfl
    | int32 m => rfl
    | uint64 m => rfl
    | float32 m => rfl
    | float64 m => rfl
    | arr xs => rfl
    | map kvs => rfl
  have stepAgree : ∀ (g : Nat) (bs : List Nat), bs.length < g →
      ∀ cs : List Nat, cs.length ≤ bs.length → decodeF g cs = decodeF (bs.length + 1) cs := by
    intro g bs hg cs hcs
    exact decodeF_stable g (bs.length + 1) cs (by omega) (by omega)
  refine ⟨core, ?_, ?_, ?_⟩
  · intro m bs v rest hm1 hm2 hdec hv
    show decodeF ((bs.length + 1) + 1) (m :: bs) = .fail .nonStringKey
    rw [decodeF_succ_cons]
    rw [if_neg (by omega : ¬ m ≤ 0x7f),
      if_pos (⟨by omega, by omega⟩ : 0x80 ≤ m ∧ m ≤ 0x8f)]
    have h15 : m &&& 0x0f = m % 16 := by
      have := Nat.and_pow_two_sub_one_eq_mod m 4
      norm_num at this
      exact this
    have hpos : 0 < m &&& 0x0f := by
      rw [h15]
      omega
    obtain ⟨n, hn⟩ : ∃ n, m &&& 0x0f = n + 1 :=
      Nat.exists_eq_succ_of_ne_zero (by omega)
    rw [hn, core (decodeF (bs.length + 1)) n bs v rest hdec hv]
    rfl
  · intro c1 c2 bs v rest hcnt hdec hv
    have e : decodeValue (0xde :: c1 :: c2 :: bs) =
        wrapMap (readMap (decodeF (bs.length + 3)) (beAcc [c1, c2]) bs) := rfl
    rw [e]
    rw [readMap_congr (decodeF (bs.length + 3)) (decodeF (bs.length + 1)) bs.length
      (stepAgree (bs.length + 3) bs (by omega))
      (fun cs v2 r2 h => decodeF_consumes _ cs v2 r2 h) (beAcc [c1, c2]) bs (Nat.le_refl _)]
    obtain ⟨n, hn⟩ : ∃ n, beAcc [c1, c2] = n + 1 :=
      Nat.exists_eq_succ_of_ne_zero (by omega)
    rw [hn, core (decodeF (bs.length + 1)) n bs v rest hdec hv]
    rfl
  · intro c1 c2 c3 c4 bs v rest hcnt hdec hv
    have e : decodeValue (0xdf :: c1 :: c2 :: c3 :: c4 :: bs) =
        wrapMap (readMap (decodeF (bs.length + 5)) (beAcc [c1, c2, c3, c4]) bs) := rfl
    rw [e]
    rw [readMap_congr (decodeF (bs.length + 5)) (decodeF (bs.length + 1)) bs.length
      (stepAgree (bs.length + 5) bs (by omega))
      (fun cs v2 r2 h => decodeF_consumes _ cs v2 r2 h)
      (beAcc [c1, c2, c3, c4]) bs (Nat.le_refl _)]
    obtain ⟨n, hn⟩ : ∃ n, beAcc [c1, c2, c3, c4] = n + 1 :=
      Nat.exists_eq_succ_of_ne_zero (by omega)
    rw [hn, core (decodeF (bs.length + 1)) n bs v rest hdec hv]
    rfl

/-- Witness for C7: a fixmap and a `map16` whose first key is `nil`
both fail with the non-string-map-key error. -/
theorem claim7_witness :
    decodeValue [0x81, 0xc0, 0xc0] = .fail .nonStringKey ∧
    decodeValue [0xde, 0, 1, 0xc0, 0xc0] = .fail .nonStringKey := by
  constructor
  · exact claim7_nonstring_key_fails.2.1 0x81 [0xc0, 0xc0] .null [0xc0]
      (by decide) (by decide) rfl rfl
  · exact claim7_nonstring_key_fails.2.2.1 0 1 [0xc0, 0xc0] .null [0xc0]
      (by decide) rfl rfl


/-- Field values of the bit pattern `0x4069000000000000` (the `float64`
produced by parsing the JSON text `200`): it is finite and its value,
scaled by `2 ^ 1074`, is exactly `200 * 2 ^ 1074`. -/
theorem bits200_facts :
    f64Finite 0x4069000000000000 = true ∧
    f64valZ 0x4069000000000000 = 200 * 2 ^ 1074 := by
  refine ⟨by decide, ?_⟩
  have hs : f64sign 0x4069000000000000 = false := by decide
  have hmag : f64magZ 0x4069000000000000 = 200 * 2 ^ 1074 := by
    have hsig : f64sig 0x4069000000000000 = 7036874417766400 := by decide
    have hsc : f64scale 0x4069000000000000 = 1030 := by decide
    unfold f64magZ
    rw [hsig, hsc]
    norm_num
  unfold f64valZ
  rw [hs]
  simp only [Bool.false_eq_true, if_false]
  rw [hmag]
  push_cast

/-- C4: the encoder's numeric dispatch.  If the `float64` pattern `b` is
finite with integer value `k` in the signed 64-bit range (the Go test
`val == float64(int64(val))` succeeds), `encodeValue` routes it through
`encodeSignedInt` at exactly `k = int64(val)`; otherwise it emits the
tag `0xcb` followed by the 8 big-endian bytes of the IEEE-754 pattern. -/
theorem claim4_float_integral_dispatch (b : Nat) :
    (∀ k : Int, -(2 ^ 63) ≤ k → k < 2 ^ 63 → f64Finite b = true →
      f64valZ b = k * 2 ^ 1074 →
      goTruncToI64 b = k ∧ encodeValue (.num b) = encodeSignedInt k) ∧
    (¬ f64IsIntegralI64 b → encodeValue (.num b) = 0xcb :: beBytes 8 b) := by
  have he : encodeValue (.num b) =
      if goF64Eq b (f64ofInt (goTruncToI64 b)) then
        encodeSignedInt (goTruncToI64 b)
      else 0xcb :: beBytes 8 b := rfl
  constructor
  · intro k hlo hhi hfin hval
    have htr : goTruncToI64 b = k := goTrunc_of_int_val b k hfin hval hlo hhi
    have htest : goF64Eq b (f64ofInt (goTruncToI64 b)) = true :=
      (goF64Eq_trunc_iff b).mpr ⟨hfin, k, hlo, hhi, hval⟩
    refine ⟨htr, ?_⟩
    rw [he, if_pos htest, htr]
  · intro hnot
    have hfalse : goF64Eq b (f64ofInt (goTruncToI64 b)) = false := by
      cases h : goF64Eq b (f64ofInt (goTruncToI64 b))
      · rfl
      · exact absurd ((goF64Eq_trunc_iff b).mp h) hnot
    rw [he, if_neg (by simp [hfalse])]

/-- Witness for C4 at the pattern of `200.0`: the integral branch fires
and hands `200` to the signed-integer encoder. -/
theorem claim4_witness :
    goTruncToI64 0x4069000000000000 = 200 ∧
    encodeValue (.num 0x4069000000000000) = encodeSignedInt 200 :=
  (claim4_float_integral_dispatch 0x4069000000000000).1 200
    (by norm_num) (by norm_num) bits200_facts.1 bits200_facts.2

/-- C1 is violated: the JSON document `200` parses to the `float64`
pattern `0x4069000000000000` with value `200`; encoding it takes the
integral branch into `encodeSignedInt 200`, which tags the value with
the `int8` tag `0xd0` (the positive ranges `128..255` use unsigned-style
width tests), so the wire bytes are `[0xd0, 0xc8]`; the decoder reads an
`int8` payload and returns `-56`, not `200`, so
`decode(encode(parse("200")))` is not numerically equal to
`parse("200")`. -/
theorem claim1_roundtrip_violated_at_200 :
    f64valZ 0x4069000000000000 = 200 * 2 ^ 1074 ∧
    encodeValue (.num 0x4069000000000000) = [0xd0, 0xc8] ∧
    decodeValue [0xd0, 0xc8] = .ok (.int8 (-56)) [] ∧
    (-56 : Int) ≠ 200 := by
  refine ⟨bits200_facts.2, ?_, rfl, by decide⟩
  have hfin := bits200_facts.1
  have hval := bits200_facts.2
  have htr : goTruncToI64 0x4069000000000000 = 200 :=
    goTrunc_of_int_val _ 200 hfin hval (by norm_num) (by norm_num)
  have htest : goF64Eq 0x4069000000000000
      (f64ofInt (goTruncToI64 0x4069000000000000)) = true :=
    (goF64Eq_trunc_iff _).mpr ⟨hfin, 200, by norm_num, by norm_num, hval⟩
  have he : encodeValue (.num 0x4069000000000000) =
      if goF64Eq 0x4069000000000000
          (f64ofInt (goTruncToI64 0x4069000000000000)) then
        encodeSignedInt (goTruncToI64 0x4069000000000000)
      else 0xcb :: beBytes 8 0x4069000000000000 := rfl
  rw [he, if_pos htest, htr]
  decide

end MsgPack
